import Mathlib

/-!
# lcp-cmp: longest-common-prefix comparison primitives

A shallow embedding of `src/lcp_cmp.c` (`lcp_cmp_single`, `lcp_cmp_dual` and the
helpers they use) together with theorems about it.

Modelling conventions.

* A buffer is a `List Byte`; the list is the whole object the pointer refers to.
  Reading at an index outside the list is an out-of-bounds read: the call has no
  defined result (`Outcome.undef`).
* `size_t` is 64 bits wide (LP64, little-endian, `sizeof(unsigned long) = 8`).
  Every `size_t` addition and subtraction of the source is taken modulo `2 ^ 64`.
* The preprocessor selection (`LCP_CMP_NATIVE`, `LCP_CMP_16B`, `LCP_CMP_32B`, or
  none of them) is the `Backend` argument of the entry points.
* The `while` loops recurse on an iteration budget. The entry points supply a
  budget of one more than the buffer size; `Outcome.timeout` is the (unreachable
  for `size_t` lengths) case that the budget is used up.
* The memory accesses of a call are listed, in order, by `lcp_cmp_single_reads`
  and `lcp_cmp_dual_reads`, which follow the same loops as the entry points.
-/

namespace LcpCmp

/-- One byte of a buffer (`uint8_t`). -/
abbrev Byte := Fin 256

/-- The number of values of `size_t` : arithmetic on `size_t` is modulo this. -/
def SIZE_MOD : Nat := 2 ^ 64

/-- Addition of two `size_t` values. -/
def size_add (a b : Nat) : Nat := (a + b) % SIZE_MOD

/-- Subtraction `a - b` of two `size_t` values (wraps around when `a < b`). -/
def size_sub (a b : Nat) : Nat := (a + SIZE_MOD - b % SIZE_MOD) % SIZE_MOD

/-- The build configurations: no chunk backend, `LCP_CMP_NATIVE`, `LCP_CMP_16B`,
`LCP_CMP_32B`. -/
inductive Backend where
  | scalar
  | native
  | sse16
  | avx32
  deriving DecidableEq, Repr

/-- Chunk width in bytes of a backend (`sizeof(unsigned long)`, 16, 32); the
build without a backend has no bulk loop. -/
def Backend.width : Backend → Nat
  | .scalar => 0
  | .native => 8
  | .sse16 => 16
  | .avx32 => 32

/-- What a call does: it returns a length, or it reads outside a buffer
(undefined behaviour), or the iteration budget of the model is used up. -/
inductive Outcome where
  | ret (len : Nat)
  | undef
  | timeout
  deriving DecidableEq, Repr

/-- The `w` bytes of `src` starting at `pos`, when they all lie inside `src`. -/
def load_bytes (src : List Byte) (pos w : Nat) : Option (List Byte) :=
  if pos + w ≤ src.length then some ((src.drop pos).take w) else none

/-- Value of a byte string copied into an unsigned integer on a little-endian
machine (`memcpy(&val, &src[pos], sizeof(val))`). -/
def le_value : List Byte → Nat
  | [] => 0
  | b :: bs => b.val + 256 * le_value bs

/-- The function `read_ulong`: the native word at `src[pos .. pos + 8)`. It
performs no bounds check; outside the buffer the read is undefined (`none`). -/
def read_ulong (src : List Byte) (pos : Nat) : Option Nat :=
  (load_bytes src pos 8).map le_value

/-- Count of trailing zero bits of `x` among its low `w` bits. -/
def ctz_bits : Nat → Nat → Nat
  | 0, _ => 0
  | w + 1, x => if x % 2 = 1 then 0 else 1 + ctz_bits w (x / 2)

/-- The builtin `__builtin_ctzl` on a 64-bit `unsigned long` (argument non-zero). -/
def builtin_ctzl (x : Nat) : Nat := ctz_bits 64 x

/-- The builtin `__builtin_ctz` on a 32-bit `unsigned int` (argument non-zero). -/
def builtin_ctz (x : Nat) : Nat := ctz_bits 32 x

/-- The intrinsics `_mm_cmpeq_epi8` / `_mm256_cmpeq_epi8`: byte-wise equality,
`0xFF` where the bytes are equal and `0x00` where they differ. -/
def mm_cmpeq_epi8 : List Byte → List Byte → List Byte
  | a :: as, b :: bs => (if a = b then 0xFF else 0x00) :: mm_cmpeq_epi8 as bs
  | _, _ => []

/-- The intrinsics `_mm_movemask_epi8` / `_mm256_movemask_epi8`: bit `i` of the
result is the most significant bit of byte `i`. -/
def mm_movemask_epi8 : List Byte → Nat
  | [] => 0
  | b :: bs => b.val / 128 + 2 * mm_movemask_epi8 bs

/-- Bitwise complement `~x` of a 32-bit `int`, as its 32-bit pattern. -/
def int_not (x : Nat) : Nat := (2 ^ 32 - 1 - x % 2 ^ 32)

/-- The mismatch signal `diff` of one bulk-loop iteration and the byte offset the
loop adds to `len` when `diff != 0`, for the two chunks at `t1[o1 ..]`, `t2[o2 ..]`.
`none` : a chunk read leaves its buffer. `some none` : `diff == 0`.
`some (some k)` : `diff != 0` and the loop returns `len + k`. The build without a
backend has no bulk loop: its case is never reached from the entry points. -/
def chunk_cmp : Backend → List Byte → List Byte → Nat → Nat → Option (Option Nat)
  | .scalar, _, _, _, _ => some none
  | .native, t1, t2, o1, o2 =>
    match read_ulong t1 o1, read_ulong t2 o2 with
    | some val1, some val2 =>
      let diff := val1 ^^^ val2
      if diff ≠ 0 then some (some (builtin_ctzl diff >>> 3)) else some none
    | _, _ => none
  | .sse16, t1, t2, o1, o2 =>
    match load_bytes t1 o1 16, load_bytes t2 o2 16 with
    | some val1, some val2 =>
      let cmpmask := mm_movemask_epi8 (mm_cmpeq_epi8 val1 val2)
      let diff := int_not cmpmask &&& 0x0000ffff
      if diff ≠ 0 then some (some (builtin_ctz diff)) else some none
    | _, _ => none
  | .avx32, t1, t2, o1, o2 =>
    match load_bytes t1 o1 32, load_bytes t2 o2 32 with
    | some val1, some val2 =>
      let cmpmask := mm_movemask_epi8 (mm_cmpeq_epi8 val1 val2)
      let diff := int_not cmpmask
      if diff ≠ 0 then some (some (builtin_ctz diff)) else some none
    | _, _ => none

/-- Tail loop of `lcp_cmp_single` (source lines 103-106):
`while (pos2 + len < text_len && text[pos1 + len] == text[pos2 + len]) len += 1;`
followed by `return len`. -/
def single_tail (text : List Byte) (text_len pos1 pos2 : Nat) : Nat → Nat → Outcome
  | 0, _ => .timeout
  | fuel + 1, len =>
    if size_add pos2 len < text_len then
      match text[size_add pos1 len]?, text[size_add pos2 len]? with
      | some a, some b =>
        if a = b then single_tail text text_len pos1 pos2 fuel (size_add len 1)
        else .ret len
      | _, _ => .undef
    else .ret len

/-- Bulk loop of `lcp_cmp_single` for a chunk backend (source lines 64-100), which
falls through to the tail loop:
`while (pos2 + len <= text_len - W) { ...; if (diff != 0) return len + k; len += W; }`. -/
def single_bulk (b : Backend) (text : List Byte) (text_len pos1 pos2 : Nat) :
    Nat → Nat → Outcome
  | 0, _ => .timeout
  | fuel + 1, len =>
    if size_add pos2 len ≤ size_sub text_len b.width then
      match chunk_cmp b text text (size_add pos1 len) (size_add pos2 len) with
      | none => .undef
      | some (some k) => .ret (size_add len k)
      | some none => single_bulk b text text_len pos1 pos2 fuel (size_add len b.width)
    else single_tail text text_len pos1 pos2 (text_len + 1) len

/-- The function `lcp_cmp_single` of `src/lcp_cmp.c`, for the build `b`. -/
def lcp_cmp_single (b : Backend) (text : List Byte) (text_len pos1 pos2 common_len : Nat) :
    Outcome :=
  let len := common_len
  let p1 := if pos1 > pos2 then pos2 else pos1
  let p2 := if pos1 > pos2 then pos1 else pos2
  match b with
  | .scalar => single_tail text text_len p1 p2 (text_len + 1) len
  | _ => single_bulk b text text_len p1 p2 (text.length + 1) len

/-- Tail loop of `lcp_cmp_dual` (source lines 155-161). -/
def dual_tail (text1 : List Byte) (text1_len : Nat) (text2 : List Byte) (text2_len : Nat)
    (pos1 pos2 : Nat) : Nat → Nat → Outcome
  | 0, _ => .timeout
  | fuel + 1, len =>
    if size_add pos1 len < text1_len ∧ size_add pos2 len < text2_len then
      match text1[size_add pos1 len]?, text2[size_add pos2 len]? with
      | some a, some b =>
        if a = b then
          dual_tail text1 text1_len text2 text2_len pos1 pos2 fuel (size_add len 1)
        else .ret len
      | _, _ => .undef
    else .ret len

/-- Bulk loop of `lcp_cmp_dual` for a chunk backend (source lines 115-152), which
falls through to the tail loop. -/
def dual_bulk (b : Backend) (text1 : List Byte) (text1_len : Nat) (text2 : List Byte)
    (text2_len : Nat) (pos1 pos2 : Nat) : Nat → Nat → Outcome
  | 0, _ => .timeout
  | fuel + 1, len =>
    if size_add pos1 len ≤ size_sub text1_len b.width ∧
        size_add pos2 len ≤ size_sub text2_len b.width then
      match chunk_cmp b text1 text2 (size_add pos1 len) (size_add pos2 len) with
      | none => .undef
      | some (some k) => .ret (size_add len k)
      | some none =>
        dual_bulk b text1 text1_len text2 text2_len pos1 pos2 fuel (size_add len b.width)
    else dual_tail text1 text1_len text2 text2_len pos1 pos2 (min text1_len text2_len + 1) len

/-- The function `lcp_cmp_dual` of `src/lcp_cmp.c`, for the build `b`. -/
def lcp_cmp_dual (b : Backend) (text1 : List Byte) (text1_len : Nat) (text2 : List Byte)
    (text2_len : Nat) (pos1 pos2 common_len : Nat) : Outcome :=
  let len := common_len
  match b with
  | .scalar => dual_tail text1 text1_len text2 text2_len pos1 pos2 (min text1_len text2_len + 1) len
  | _ =>
    dual_bulk b text1 text1_len text2 text2_len pos1 pos2
      (min text1.length text2.length + 1) len

/-- Length of the longest common prefix of two byte strings, compared byte by
byte from their first bytes. -/
def common_prefix_len : List Byte → List Byte → Nat
  | a :: as, b :: bs => if a = b then 1 + common_prefix_len as bs else 0
  | _, _ => 0

/-- The reference result the specification compares against: the trivial linear
byte-by-byte comparison, starting at offset 0, of the suffix of `text1` at `pos1`
with the suffix of `text2` at `pos2`. -/
def naive_lcp (text1 text2 : List Byte) (pos1 pos2 : Nat) : Nat :=
  common_prefix_len (text1.drop pos1) (text2.drop pos2)

/-- The caller's promise about `common_len`: the first `c` bytes from the two
positions lie inside their buffers and are pairwise equal. -/
def ValidBound (text1 text2 : List Byte) (pos1 pos2 c : Nat) : Prop :=
  pos1 + c ≤ text1.length ∧ pos2 + c ≤ text2.length ∧
    ∀ i, i < c → text1[pos1 + i]? = text2[pos2 + i]?

/-- The bytes `"abcabd"`. -/
def abcabd : List Byte := [97, 98, 99, 97, 98, 100]

/-- The bytes `"hello"`. -/
def hello : List Byte := [104, 101, 108, 108, 111]

/-- The bytes `"help"`. -/
def help : List Byte := [104, 101, 108, 112]

/-- The bytes `"aaaaaaaa"`. -/
def aaaaaaaa : List Byte := [97, 97, 97, 97, 97, 97, 97, 97]

/-- The bytes `"abcb"`. -/
def abcb : List Byte := [97, 98, 99, 98]

/-- The bytes `"aaaa"`. -/
def aaaa : List Byte := [97, 97, 97, 97]

/-- A 24-byte object: twelve `'a'`, one `'b'`, eleven `'c'`. -/
def mem24 : List Byte := List.replicate 12 97 ++ [98] ++ List.replicate 11 99

/-- The 16 bytes `"abcabdabcabdabcb"`. -/
def text16 : List Byte := abcabd ++ abcabd ++ abcb

/-- The 16 bytes `"zbcabdabcabdabcb"`: `text16` with another first byte. -/
def text16z : List Byte := 122 :: text16.tail

/-- A 40-byte buffer: one `'a'` followed by thirty-nine `'b'`. -/
def abbb40 : List Byte := 97 :: List.replicate 39 98

/-- The bytes `"aaaaaaaaa"` (nine). -/
def aaaaaaaaa : List Byte := [97, 97, 97, 97, 97, 97, 97, 97, 97]

/-- The 8 bytes `"abcdefgh"`. -/
def abcdefgh : List Byte := [97, 98, 99, 100, 101, 102, 103, 104]

/-- The 8 bytes `"abcdeXgh"`: `abcdefgh` with another byte at index 5. -/
def abcdeXgh : List Byte := [97, 98, 99, 100, 101, 88, 103, 104]

/-- The mismatch mask of two byte strings: bit `i` is set when byte `i` differs. It
is the complement, within the chunk, of the comparison mask that
`mm_movemask_epi8 (mm_cmpeq_epi8 v1 v2)` computes. -/
def mismatch_mask : List Byte → List Byte → Nat
  | a :: as, b :: bs => (if a = b then 0 else 1) + 2 * mismatch_mask as bs
  | _, _ => 0

/-- The index `k` is the first (lowest-offset) position at which the chunks `v1`
and `v2` differ. -/
def IsFirstDiff (v1 v2 : List Byte) (k : Nat) : Prop :=
  k < v1.length ∧ v1[k]? ≠ v2[k]? ∧ ∀ j, j < k → v1[j]? = v2[j]?

/-- One memory access of a call: a chunk read of `W` bytes at offset `off1` of the
first buffer and at offset `off2` of the second, or a byte read at index `idx1` of
the first buffer and at index `idx2` of the second. In `lcp_cmp_single` both
buffers are `text`. -/
inductive Access where
  | chunk (off1 off2 : Nat)
  | byte (idx1 idx2 : Nat)
  deriving DecidableEq, Repr

/-- An access lies inside the buffers `text1` and `text2`, for chunk width `w`. -/
def Access.InBounds (w : Nat) (text1 text2 : List Byte) : Access → Prop
  | .chunk off1 off2 => off1 + w ≤ text1.length ∧ off2 + w ≤ text2.length
  | .byte idx1 idx2 => idx1 < text1.length ∧ idx2 < text2.length

/-- The accesses of the tail loop of `lcp_cmp_single`, in order: each iteration
whose test `pos2 + len < text_len` passes reads `text[pos1 + len]` and
`text[pos2 + len]`. -/
def single_tail_reads (text : List Byte) (text_len pos1 pos2 : Nat) :
    Nat → Nat → List Access
  | 0, _ => []
  | fuel + 1, len =>
    if size_add pos2 len < text_len then
      .byte (size_add pos1 len) (size_add pos2 len) ::
        (match text[size_add pos1 len]?, text[size_add pos2 len]? with
        | some a, some b =>
          if a = b then single_tail_reads text text_len pos1 pos2 fuel (size_add len 1)
          else []
        | _, _ => [])
    else []

/-- The accesses of the bulk loop of `lcp_cmp_single` and of the tail loop it falls
through to: each iteration whose guard passes reads one chunk on either side. -/
def single_bulk_reads (b : Backend) (text : List Byte) (text_len pos1 pos2 : Nat) :
    Nat → Nat → List Access
  | 0, _ => []
  | fuel + 1, len =>
    if size_add pos2 len ≤ size_sub text_len b.width then
      .chunk (size_add pos1 len) (size_add pos2 len) ::
        (match chunk_cmp b text text (size_add pos1 len) (size_add pos2 len) with
        | some none => single_bulk_reads b text text_len pos1 pos2 fuel (size_add len b.width)
        | _ => [])
    else single_tail_reads text text_len pos1 pos2 (text_len + 1) len

/-- The accesses of a call of `lcp_cmp_single`, in order. -/
def lcp_cmp_single_reads (b : Backend) (text : List Byte)
    (text_len pos1 pos2 common_len : Nat) : List Access :=
  let len := common_len
  let p1 := if pos1 > pos2 then pos2 else pos1
  let p2 := if pos1 > pos2 then pos1 else pos2
  match b with
  | .scalar => single_tail_reads text text_len p1 p2 (text_len + 1) len
  | _ => single_bulk_reads b text text_len p1 p2 (text.length + 1) len

/-- The accesses of the tail loop of `lcp_cmp_dual`, in order. -/
def dual_tail_reads (text1 : List Byte) (text1_len : Nat) (text2 : List Byte)
    (text2_len : Nat) (pos1 pos2 : Nat) : Nat → Nat → List Access
  | 0, _ => []
  | fuel + 1, len =>
    if size_add pos1 len < text1_len ∧ size_add pos2 len < text2_len then
      .byte (size_add pos1 len) (size_add pos2 len) ::
        (match text1[size_add pos1 len]?, text2[size_add pos2 len]? with
        | some a, some b =>
          if a = b then
            dual_tail_reads text1 text1_len text2 text2_len pos1 pos2 fuel (size_add len 1)
          else []
        | _, _ => [])
    else []

/-- The accesses of the bulk loop of `lcp_cmp_dual` and of the tail loop it falls
through to. -/
def dual_bulk_reads (b : Backend) (text1 : List Byte) (text1_len : Nat) (text2 : List Byte)
    (text2_len : Nat) (pos1 pos2 : Nat) : Nat → Nat → List Access
  | 0, _ => []
  | fuel + 1, len =>
    if size_add pos1 len ≤ size_sub text1_len b.width ∧
        size_add pos2 len ≤ size_sub text2_len b.width then
      .chunk (size_add pos1 len) (size_add pos2 len) ::
        (match chunk_cmp b text1 text2 (size_add pos1 len) (size_add pos2 len) with
        | some none =>
          dual_bulk_reads b text1 text1_len text2 text2_len pos1 pos2 fuel
            (size_add len b.width)
        | _ => [])
    else
      dual_tail_reads text1 text1_len text2 text2_len pos1 pos2
        (min text1_len text2_len + 1) len

/-- The accesses of a call of `lcp_cmp_dual`, in order. -/
def lcp_cmp_dual_reads (b : Backend) (text1 : List Byte) (text1_len : Nat)
    (text2 : List Byte) (text2_len : Nat) (pos1 pos2 common_len : Nat) : List Access :=
  let len := common_len
  match b with
  | .scalar =>
    dual_tail_reads text1 text1_len text2 text2_len pos1 pos2
      (min text1_len text2_len + 1) len
  | _ =>
    dual_bulk_reads b text1 text1_len text2 text2_len pos1 pos2
      (min text1.length text2.length + 1) len

/-! ## Arithmetic on `size_t` -/

theorem size_add_eq {a b : Nat} (h : a + b < SIZE_MOD) : size_add a b = a + b := by
  unfold size_add
  exact Nat.mod_eq_of_lt h

theorem size_sub_eq {a b : Nat} (hb : b ≤ a) (ha : a < SIZE_MOD) : size_sub a b = a - b := by
  unfold size_sub
  have hb2 : b % SIZE_MOD = b := Nat.mod_eq_of_lt (by omega)
  rw [hb2]
  have h1 : a + SIZE_MOD - b = (a - b) + SIZE_MOD := by omega
  rw [h1, Nat.add_mod_right]
  exact Nat.mod_eq_of_lt (by omega)

theorem size_sub_wrap {a b : Nat} (hb : a < b) (hb2 : b < SIZE_MOD) :
    size_sub a b = a + SIZE_MOD - b := by
  unfold size_sub
  have hb3 : b % SIZE_MOD = b := Nat.mod_eq_of_lt hb2
  rw [hb3]
  exact Nat.mod_eq_of_lt (by omega)

theorem width_lt_size_mod (b : Backend) : b.width < SIZE_MOD := by
  cases b <;> simp [Backend.width, SIZE_MOD]

/-! ## The reference comparison -/

theorem common_prefix_len_le_left (xs ys : List Byte) :
    common_prefix_len xs ys ≤ xs.length := by
  induction xs generalizing ys with
  | nil => simp [common_prefix_len]
  | cons a as ih =>
    cases ys with
    | nil => simp [common_prefix_len]
    | cons c cs =>
      simp only [common_prefix_len, List.length_cons]
      split
      · have := ih cs
        omega
      · omega

theorem common_prefix_len_le_right (xs ys : List Byte) :
    common_prefix_len xs ys ≤ ys.length := by
  induction xs generalizing ys with
  | nil => simp [common_prefix_len]
  | cons a as ih =>
    cases ys with
    | nil => simp [common_prefix_len]
    | cons c cs =>
      simp only [common_prefix_len, List.length_cons]
      split
      · have := ih cs
        omega
      · omega

theorem common_prefix_len_agree (xs ys : List Byte) (i : Nat)
    (hi : i < common_prefix_len xs ys) : xs[i]? = ys[i]? := by
  induction xs generalizing ys i with
  | nil => simp [common_prefix_len] at hi
  | cons a as ih =>
    cases ys with
    | nil => simp [common_prefix_len] at hi
    | cons c cs =>
      simp only [common_prefix_len] at hi
      split at hi
      · rename_i hac
        cases i with
        | zero => simp [hac]
        | succ j =>
          simp only [List.getElem?_cons_succ]
          exact ih cs j (by omega)
      · omega

theorem common_prefix_len_greatest (xs ys : List Byte) (k : Nat) (hx : k ≤ xs.length)
    (hy : k ≤ ys.length) (h : ∀ i, i < k → xs[i]? = ys[i]?) :
    k ≤ common_prefix_len xs ys := by
  induction xs generalizing ys k with
  | nil =>
    simp only [List.length_nil, Nat.le_zero_eq] at hx
    omega
  | cons a as ih =>
    cases ys with
    | nil =>
      simp only [List.length_nil, Nat.le_zero_eq] at hy
      omega
    | cons c cs =>
      cases k with
      | zero => omega
      | succ j =>
        have h0 := h 0 (by omega)
        simp only [List.getElem?_cons_zero, Option.some.injEq] at h0
        simp only [common_prefix_len, h0, if_true]
        have := ih cs j (by simpa using hx) (by simpa using hy) (fun i hi => by
          have := h (i + 1) (by omega)
          simpa using this)
        omega

/-- Once the first `c` bytes are known to agree, the comparison may resume at `c`. -/
theorem common_prefix_len_resume (xs ys : List Byte) (c : Nat) (hx : c ≤ xs.length)
    (hy : c ≤ ys.length) (h : ∀ i, i < c → xs[i]? = ys[i]?) :
    common_prefix_len xs ys = c + common_prefix_len (xs.drop c) (ys.drop c) := by
  induction c generalizing xs ys with
  | zero => simp
  | succ j ih =>
    cases xs with
    | nil => simp at hx
    | cons a as =>
      cases ys with
      | nil => simp at hy
      | cons d ds =>
        have h0 := h 0 (by omega)
        simp only [List.getElem?_cons_zero, Option.some.injEq] at h0
        simp only [common_prefix_len, h0, if_true, List.drop_succ_cons]
        rw [ih as ds (by simpa using hx) (by simpa using hy) (fun i hi => by
          have := h (i + 1) (by omega)
          simpa using this)]
        omega

/-- When two strings agree wherever both are defined, their common prefix is the
shorter one. -/
theorem common_prefix_len_of_agree (xs ys : List Byte)
    (h : ∀ i, i < min xs.length ys.length → xs[i]? = ys[i]?) :
    common_prefix_len xs ys = min xs.length ys.length := by
  apply Nat.le_antisymm
  · exact Nat.le_min.mpr ⟨common_prefix_len_le_left xs ys, common_prefix_len_le_right xs ys⟩
  · exact common_prefix_len_greatest xs ys _ (Nat.min_le_left _ _) (Nat.min_le_right _ _) h

/-- The reference result is the greatest length on which the two suffixes lie
inside their buffers and agree. -/
theorem naive_lcp_isGreatest (text1 text2 : List Byte) (pos1 pos2 : Nat)
    (h1 : pos1 ≤ text1.length) (h2 : pos2 ≤ text2.length) :
    IsGreatest {k | pos1 + k ≤ text1.length ∧ pos2 + k ≤ text2.length ∧
      ∀ i, i < k → text1[pos1 + i]? = text2[pos2 + i]?} (naive_lcp text1 text2 pos1 pos2) := by
  constructor
  · refine ⟨?_, ?_, ?_⟩
    · have := common_prefix_len_le_left (text1.drop pos1) (text2.drop pos2)
      simp only [List.length_drop] at this
      unfold naive_lcp
      omega
    · have := common_prefix_len_le_right (text1.drop pos1) (text2.drop pos2)
      simp only [List.length_drop] at this
      unfold naive_lcp
      omega
    · intro i hi
      have := common_prefix_len_agree (text1.drop pos1) (text2.drop pos2) i hi
      simpa [List.getElem?_drop] using this
  · rintro k ⟨hk1, hk2, hk⟩
    apply common_prefix_len_greatest
    · simp only [List.length_drop]
      omega
    · simp only [List.length_drop]
      omega
    · intro i hi
      simpa [List.getElem?_drop] using hk i hi

theorem naive_lcp_resume (text1 text2 : List Byte) (pos1 pos2 c : Nat)
    (h : ValidBound text1 text2 pos1 pos2 c) :
    naive_lcp text1 text2 pos1 pos2 = c + naive_lcp text1 text2 (pos1 + c) (pos2 + c) := by
  obtain ⟨h1, h2, h3⟩ := h
  unfold naive_lcp
  rw [common_prefix_len_resume (text1.drop pos1) (text2.drop pos2) c
    (by simp only [List.length_drop]; omega) (by simp only [List.length_drop]; omega)
    (fun i hi => by simpa [List.getElem?_drop] using h3 i hi)]
  simp only [List.drop_drop]

/-! ## The tail loops -/

/-- The tail loop of `lcp_cmp_dual` started at an in-range offset returns `len`
plus the reference result of the two remaining suffixes. -/
theorem dual_tail_eq (text1 text2 : List Byte) (pos1 pos2 : Nat)
    (hn1 : text1.length < SIZE_MOD) (hn2 : text2.length < SIZE_MOD) :
    ∀ (fuel len : Nat), pos1 + len ≤ text1.length → pos2 + len ≤ text2.length →
      text1.length - (pos1 + len) < fuel ∨ text2.length - (pos2 + len) < fuel →
      dual_tail text1 text1.length text2 text2.length pos1 pos2 fuel len
        = .ret (len + naive_lcp text1 text2 (pos1 + len) (pos2 + len)) := by
  intro fuel
  induction fuel with
  | zero => intro len _ _ h; omega
  | succ f ih =>
    intro len h1 h2 hf
    unfold dual_tail
    rw [size_add_eq (by omega), size_add_eq (by omega)]
    by_cases hc : pos1 + len < text1.length ∧ pos2 + len < text2.length
    · rw [if_pos hc]
      obtain ⟨hc1, hc2⟩ := hc
      rw [List.getElem?_eq_getElem hc1, List.getElem?_eq_getElem hc2]
      simp only
      unfold naive_lcp
      rw [List.drop_eq_getElem_cons hc1, List.drop_eq_getElem_cons hc2]
      simp only [common_prefix_len]
      by_cases hab : text1[pos1 + len] = text2[pos2 + len]
      · rw [if_pos hab, if_pos hab, size_add_eq (by omega)]
        rw [ih (len + 1) (by omega) (by omega) (by omega)]
        unfold naive_lcp
        simp only [Nat.add_assoc]
      · rw [if_neg hab, if_neg hab]
        simp
    · rw [if_neg hc]
      have : naive_lcp text1 text2 (pos1 + len) (pos2 + len) = 0 := by
        unfold naive_lcp
        rcases Nat.lt_or_ge (pos1 + len) text1.length with h | h
        · have h3 : text2.length ≤ pos2 + len := by
            by_contra hh
            exact hc ⟨h, by omega⟩
          rw [List.drop_eq_nil_of_le h3]
          cases text1.drop (pos1 + len) <;> simp [common_prefix_len]
        · rw [List.drop_eq_nil_of_le h]
          simp [common_prefix_len]
      rw [this]
      simp

/-! ## One chunk comparison -/

theorem load_bytes_some {src : List Byte} {pos w : Nat} {v : List Byte}
    (h : load_bytes src pos w = some v) :
    pos + w ≤ src.length ∧ v = (src.drop pos).take w ∧ v.length = w := by
  unfold load_bytes at h
  split at h
  · rename_i hle
    simp only [Option.some.injEq] at h
    refine ⟨hle, h.symm, ?_⟩
    rw [← h, List.length_take, List.length_drop]
    omega
  · simp at h

theorem load_bytes_of_le {src : List Byte} {pos w : Nat} (h : pos + w ≤ src.length) :
    load_bytes src pos w = some ((src.drop pos).take w) := by
  unfold load_bytes
  rw [if_pos h]

theorem load_bytes_none {src : List Byte} {pos w : Nat} (h : src.length < pos + w) :
    load_bytes src pos w = none := by
  unfold load_bytes
  rw [if_neg (by omega)]

theorem le_value_lt (bs : List Byte) : le_value bs < 256 ^ bs.length := by
  induction bs with
  | nil => simp [le_value]
  | cons b bs ih =>
    simp only [le_value, List.length_cons, Nat.pow_succ]
    have := b.isLt
    omega

theorem ctz_bits_lt (w : Nat) : ∀ (k x : Nat), x ≠ 0 → x < 2 ^ k → k ≤ w →
    ctz_bits w x < k := by
  induction w with
  | zero =>
    intro k x hx hlt hk
    have hk0 : k = 0 := by omega
    subst hk0
    simp only [Nat.pow_zero, Nat.lt_one_iff] at hlt
    exact absurd hlt hx
  | succ w ih =>
    intro k x hx hlt hk
    cases k with
    | zero =>
      simp only [Nat.pow_zero, Nat.lt_one_iff] at hlt
      exact absurd hlt hx
    | succ j =>
      unfold ctz_bits
      split
      · omega
      · rename_i hodd
        have hx2 : x / 2 ≠ 0 := by omega
        have hlt2 : x / 2 < 2 ^ j := by
          rw [Nat.pow_succ] at hlt
          omega
        have := ih j (x / 2) hx2 hlt2 (by omega)
        omega

theorem int_not_lt (x : Nat) : int_not x < 2 ^ 32 := by
  unfold int_not
  omega

/-- A chunk comparison that is defined read both chunks inside their buffers. -/
theorem chunk_cmp_some_bounds {b : Backend} {t1 t2 : List Byte} {o1 o2 : Nat}
    {r : Option Nat} (hb : b ≠ .scalar) (h : chunk_cmp b t1 t2 o1 o2 = some r) :
    o1 + b.width ≤ t1.length ∧ o2 + b.width ≤ t2.length := by
  cases b with
  | scalar => exact absurd rfl hb
  | native =>
    simp only [chunk_cmp, read_ulong] at h
    cases h1 : load_bytes t1 o1 8 with
    | none => simp [h1] at h
    | some v1 =>
      cases h2 : load_bytes t2 o2 8 with
      | none => simp [h1, h2] at h
      | some v2 => exact ⟨(load_bytes_some h1).1, (load_bytes_some h2).1⟩
  | sse16 =>
    simp only [chunk_cmp] at h
    cases h1 : load_bytes t1 o1 16 with
    | none => simp [h1] at h
    | some v1 =>
      cases h2 : load_bytes t2 o2 16 with
      | none => simp [h1, h2] at h
      | some v2 => exact ⟨(load_bytes_some h1).1, (load_bytes_some h2).1⟩
  | avx32 =>
    simp only [chunk_cmp] at h
    cases h1 : load_bytes t1 o1 32 with
    | none => simp [h1] at h
    | some v1 =>
      cases h2 : load_bytes t2 o2 32 with
      | none => simp [h1, h2] at h
      | some v2 => exact ⟨(load_bytes_some h1).1, (load_bytes_some h2).1⟩

/-- A chunk read that leaves either buffer makes the comparison undefined. -/
theorem chunk_cmp_none_of_lt {b : Backend} {t1 t2 : List Byte} {o1 o2 : Nat}
    (hb : b ≠ .scalar) (h : t1.length < o1 + b.width ∨ t2.length < o2 + b.width) :
    chunk_cmp b t1 t2 o1 o2 = none := by
  cases hc : chunk_cmp b t1 t2 o1 o2 with
  | none => rfl
  | some r =>
    have := chunk_cmp_some_bounds hb hc
    omega

/-- The byte offset a mismatching chunk adds to `len` is inside the chunk. -/
theorem chunk_cmp_offset_lt {b : Backend} {t1 t2 : List Byte} {o1 o2 k : Nat}
    (h : chunk_cmp b t1 t2 o1 o2 = some (some k)) : k < b.width := by
  cases b with
  | scalar => simp [chunk_cmp] at h
  | native =>
    simp only [chunk_cmp, read_ulong] at h
    cases h1 : load_bytes t1 o1 8 with
    | none => simp [h1] at h
    | some v1 =>
      cases h2 : load_bytes t2 o2 8 with
      | none => simp [h1, h2] at h
      | some v2 =>
        simp only [h1, h2, Option.map_some', ne_eq, ite_not] at h
        split at h
        · simp at h
        · rename_i hd
          simp only [Option.some.injEq] at h
          have hv1 := le_value_lt v1
          have hv2 := le_value_lt v2
          rw [(load_bytes_some h1).2.2] at hv1
          rw [(load_bytes_some h2).2.2] at hv2
          have hx : le_value v1 ^^^ le_value v2 < 2 ^ 64 :=
            Nat.xor_lt_two_pow (by simpa using hv1) (by simpa using hv2)
          have := ctz_bits_lt 64 64 _ hd hx (Nat.le_refl _)
          rw [← h, Nat.shiftRight_eq_div_pow]
          simp only [builtin_ctzl, Backend.width]
          omega
  | sse16 =>
    simp only [chunk_cmp] at h
    cases h1 : load_bytes t1 o1 16 with
    | none => simp [h1] at h
    | some v1 =>
      cases h2 : load_bytes t2 o2 16 with
      | none => simp [h1, h2] at h
      | some v2 =>
        simp only [h1, h2, ne_eq, ite_not] at h
        split at h
        · simp at h
        · rename_i hd
          simp only [Option.some.injEq] at h
          have hx : int_not (mm_movemask_epi8 (mm_cmpeq_epi8 v1 v2)) &&& 0x0000ffff < 2 ^ 16 :=
            Nat.and_lt_two_pow _ (by norm_num)
          have := ctz_bits_lt 32 16 _ hd hx (by norm_num)
          rw [← h]
          simpa only [builtin_ctz, Backend.width] using this
  | avx32 =>
    simp only [chunk_cmp] at h
    cases h1 : load_bytes t1 o1 32 with
    | none => simp [h1] at h
    | some v1 =>
      cases h2 : load_bytes t2 o2 32 with
      | none => simp [h1, h2] at h
      | some v2 =>
        simp only [h1, h2, ne_eq, ite_not] at h
        split at h
        · simp at h
        · rename_i hd
          simp only [Option.some.injEq] at h
          have := ctz_bits_lt 32 32 _ hd (int_not_lt _) (Nat.le_refl _)
          rw [← h]
          simpa only [builtin_ctz, Backend.width] using this

theorem mm_cmpeq_epi8_comm (xs ys : List Byte) :
    mm_cmpeq_epi8 xs ys = mm_cmpeq_epi8 ys xs := by
  induction xs generalizing ys with
  | nil => cases ys <;> simp [mm_cmpeq_epi8]
  | cons a as ih =>
    cases ys with
    | nil => simp [mm_cmpeq_epi8]
    | cons c cs =>
      simp only [mm_cmpeq_epi8, ih cs, eq_comm]

/-- Exchanging the two sides of a chunk comparison does not change it. -/
theorem chunk_cmp_comm (b : Backend) (t1 t2 : List Byte) (o1 o2 : Nat) :
    chunk_cmp b t1 t2 o1 o2 = chunk_cmp b t2 t1 o2 o1 := by
  cases b with
  | scalar => rfl
  | native =>
    simp only [chunk_cmp]
    cases read_ulong t1 o1 <;> cases read_ulong t2 o2 <;> simp [Nat.xor_comm]
  | sse16 =>
    simp only [chunk_cmp]
    cases load_bytes t1 o1 16 <;> cases load_bytes t2 o2 16 <;>
      simp [mm_cmpeq_epi8_comm]
  | avx32 =>
    simp only [chunk_cmp]
    cases load_bytes t1 o1 32 <;> cases load_bytes t2 o2 32 <;>
      simp [mm_cmpeq_epi8_comm]

theorem mm_movemask_cmpeq_self (v : List Byte) :
    mm_movemask_epi8 (mm_cmpeq_epi8 v v) = 2 ^ v.length - 1 := by
  induction v with
  | nil => simp [mm_cmpeq_epi8, mm_movemask_epi8]
  | cons a as ih =>
    simp only [mm_cmpeq_epi8, if_true, mm_movemask_epi8, ih, List.length_cons, Nat.pow_succ]
    have : 0 < 2 ^ as.length := Nat.pos_pow_of_pos _ (by norm_num)
    have h255 : ((0xFF : Byte).val) / 128 = 1 := by decide
    omega

/-- Two equal chunks give `diff == 0`: the bulk loop goes on to the next chunk. -/
theorem chunk_cmp_of_eq {b : Backend} {t1 t2 : List Byte} {o1 o2 : Nat} {v : List Byte}
    (h1 : load_bytes t1 o1 b.width = some v) (h2 : load_bytes t2 o2 b.width = some v) :
    chunk_cmp b t1 t2 o1 o2 = some none := by
  cases b with
  | scalar => rfl
  | native =>
    simp only [Backend.width] at h1 h2
    simp [chunk_cmp, read_ulong, h1, h2]
  | sse16 =>
    simp only [Backend.width] at h1 h2
    have hl := (load_bytes_some h1).2.2
    simp only [chunk_cmp, h1, h2, mm_movemask_cmpeq_self, hl]
    decide
  | avx32 =>
    simp only [Backend.width] at h1 h2
    have hl := (load_bytes_some h1).2.2
    simp only [chunk_cmp, h1, h2, mm_movemask_cmpeq_self, hl]
    decide

/-- With the smaller position first and no `size_t` overflow, the tail loop of
`lcp_cmp_single` does what the tail loop of `lcp_cmp_dual` does on the same text. -/
theorem single_tail_eq_dual_tail (text : List Byte) (n p1 p2 : Nat) (hp : p1 ≤ p2)
    (hn : n < SIZE_MOD) :
    ∀ (fuel len : Nat), p2 + len < SIZE_MOD →
      single_tail text n p1 p2 fuel len = dual_tail text n text n p1 p2 fuel len := by
  intro fuel
  induction fuel with
  | zero => intro len _; rfl
  | succ f ih =>
    intro len hlen
    unfold single_tail dual_tail
    rw [size_add_eq hlen, size_add_eq (show p1 + len < SIZE_MOD by omega)]
    by_cases hc : p2 + len < n
    · rw [if_pos hc, if_pos (show p1 + len < n ∧ p2 + len < n from ⟨by omega, hc⟩)]
      rw [size_add_eq (show len + 1 < SIZE_MOD by omega)]
      rw [ih (len + 1) (by omega)]
    · rw [if_neg hc, if_neg (fun h => hc h.2)]

/-- The same for the bulk loops. -/
theorem single_bulk_eq_dual_bulk (b : Backend) (hb : b ≠ .scalar) (text : List Byte)
    (n p1 p2 : Nat) (hp : p1 ≤ p2) (hn : n < SIZE_MOD) (hlen : text.length < SIZE_MOD) :
    ∀ (fuel len : Nat), p2 + len < SIZE_MOD →
      single_bulk b text n p1 p2 fuel len = dual_bulk b text n text n p1 p2 fuel len := by
  intro fuel
  induction fuel with
  | zero => intro len _; rfl
  | succ f ih =>
    intro len hl
    unfold single_bulk dual_bulk
    rw [size_add_eq hl, size_add_eq (show p1 + len < SIZE_MOD by omega)]
    by_cases hc : p2 + len ≤ size_sub n b.width
    · rw [if_pos hc, if_pos (show p1 + len ≤ size_sub n b.width ∧
        p2 + len ≤ size_sub n b.width from ⟨by omega, hc⟩)]
      cases hcmp : chunk_cmp b text text (p1 + len) (p2 + len) with
      | none => rfl
      | some r =>
        cases r with
        | some k => rfl
        | none =>
          have hbd := chunk_cmp_some_bounds hb hcmp
          simp only
          rw [size_add_eq (show len + b.width < SIZE_MOD by omega)]
          exact ih (len + b.width) (by omega)
    · rw [if_neg hc, if_neg (fun h => hc h.2), Nat.min_self]
      exact single_tail_eq_dual_tail text n p1 p2 hp hn _ len hl

/-! ## Exchanging the two sides of `lcp_cmp_dual` -/

theorem dual_tail_comm (text1 : List Byte) (n1 : Nat) (text2 : List Byte) (n2 p1 p2 : Nat) :
    ∀ (fuel len : Nat),
      dual_tail text1 n1 text2 n2 p1 p2 fuel len = dual_tail text2 n2 text1 n1 p2 p1 fuel len := by
  intro fuel
  induction fuel with
  | zero => intro len; rfl
  | succ f ih =>
    intro len
    unfold dual_tail
    by_cases hc : size_add p1 len < n1 ∧ size_add p2 len < n2
    · rw [if_pos hc, if_pos hc.symm]
      cases text1[size_add p1 len]? <;> cases text2[size_add p2 len]? <;>
        simp only [ih, eq_comm]
    · rw [if_neg hc, if_neg (fun h => hc h.symm)]

theorem dual_bulk_comm (b : Backend) (text1 : List Byte) (n1 : Nat) (text2 : List Byte)
    (n2 p1 p2 : Nat) :
    ∀ (fuel len : Nat),
      dual_bulk b text1 n1 text2 n2 p1 p2 fuel len
        = dual_bulk b text2 n2 text1 n1 p2 p1 fuel len := by
  intro fuel
  induction fuel with
  | zero => intro len; rfl
  | succ f ih =>
    intro len
    unfold dual_bulk
    by_cases hc : size_add p1 len ≤ size_sub n1 b.width ∧ size_add p2 len ≤ size_sub n2 b.width
    · rw [if_pos hc, if_pos hc.symm, chunk_cmp_comm b text1 text2]
      cases chunk_cmp b text2 text1 (size_add p2 len) (size_add p1 len) with
      | none => rfl
      | some r =>
        cases r with
        | some k => rfl
        | none => exact ih _
    · rw [if_neg hc, if_neg (fun h => hc h.symm), Nat.min_comm n1 n2]
      exact dual_tail_comm text1 n1 text2 n2 p1 p2 _ len

/-- The two sides of `lcp_cmp_dual` may be exchanged, in every build. -/
theorem lcp_cmp_dual_swap (b : Backend) (text1 : List Byte) (n1 : Nat) (text2 : List Byte)
    (n2 p1 p2 c : Nat) :
    lcp_cmp_dual b text1 n1 text2 n2 p1 p2 c = lcp_cmp_dual b text2 n2 text1 n1 p2 p1 c := by
  unfold lcp_cmp_dual
  cases b
  · simp only [Nat.min_comm n1 n2]
    exact dual_tail_comm text1 n1 text2 n2 p1 p2 _ c
  all_goals
    simp only [Nat.min_comm text1.length text2.length]
    exact dual_bulk_comm _ text1 n1 text2 n2 p1 p2 _ c

/-- With the smaller position first and no `size_t` overflow, `lcp_cmp_single` is
`lcp_cmp_dual` on the same text, in every build. -/
theorem lcp_cmp_single_eq_dual_of_le (b : Backend) (text : List Byte) (n p1 p2 c : Nat)
    (hp : p1 ≤ p2) (hn : n < SIZE_MOD) (hlen : text.length < SIZE_MOD)
    (hc : p2 + c < SIZE_MOD) :
    lcp_cmp_single b text n p1 p2 c = lcp_cmp_dual b text n text n p1 p2 c := by
  unfold lcp_cmp_single lcp_cmp_dual
  have h1 : (if p1 > p2 then p2 else p1) = p1 := if_neg (by omega)
  have h2 : (if p1 > p2 then p1 else p2) = p2 := if_neg (by omega)
  simp only [h1, h2, Nat.min_self]
  cases b with
  | scalar => exact single_tail_eq_dual_tail text n p1 p2 hp hn _ c hc
  | native => exact single_bulk_eq_dual_bulk _ (by decide) text n p1 p2 hp hn hlen _ c hc
  | sse16 => exact single_bulk_eq_dual_bulk _ (by decide) text n p1 p2 hp hn hlen _ c hc
  | avx32 => exact single_bulk_eq_dual_bulk _ (by decide) text n p1 p2 hp hn hlen _ c hc

/-- The swap at the head of `lcp_cmp_single`: the call only depends on the
smaller and the larger of the two positions. -/
theorem lcp_cmp_single_sorted (b : Backend) (text : List Byte) (n p1 p2 c : Nat) :
    lcp_cmp_single b text n p1 p2 c = lcp_cmp_single b text n (min p1 p2) (max p1 p2) c := by
  unfold lcp_cmp_single
  have e1 : (if p1 > p2 then p2 else p1) = min p1 p2 := by
    split <;> omega
  have e2 : (if p1 > p2 then p1 else p2) = max p1 p2 := by
    split <;> omega
  have e3 : (if min p1 p2 > max p1 p2 then max p1 p2 else min p1 p2) = min p1 p2 := by
    split <;> omega
  have e4 : (if min p1 p2 > max p1 p2 then min p1 p2 else max p1 p2) = max p1 p2 := by
    split <;> omega
  simp only [e1, e2, e3, e4]

theorem width_pos {b : Backend} (hb : b ≠ .scalar) : 0 < b.width := by
  cases b with
  | scalar => exact absurd rfl hb
  | native => decide
  | sse16 => decide
  | avx32 => decide

/-- Without `size_t` overflow, `lcp_cmp_single` is `lcp_cmp_dual` on the same text,
whichever position is the larger, in every build. -/
theorem lcp_cmp_single_eq_dual (b : Backend) (text : List Byte) (n p1 p2 c : Nat)
    (hn : n < SIZE_MOD) (hlen : text.length < SIZE_MOD)
    (h1 : p1 + c < SIZE_MOD) (h2 : p2 + c < SIZE_MOD) :
    lcp_cmp_single b text n p1 p2 c = lcp_cmp_dual b text n text n p1 p2 c := by
  rcases Nat.le_total p1 p2 with h | h
  · exact lcp_cmp_single_eq_dual_of_le b text n p1 p2 c h hn hlen h2
  · rw [lcp_cmp_single_sorted, Nat.min_eq_right h, Nat.max_eq_left h,
      lcp_cmp_single_eq_dual_of_le b text n p2 p1 c h hn hlen h1]
    exact lcp_cmp_dual_swap b text n text n p2 p1 c

/-! ## The result is never below the starting offset -/

theorem dual_tail_ge (text1 : List Byte) (n1 : Nat) (text2 : List Byte) (n2 p1 p2 : Nat)
    (hn1 : n1 < SIZE_MOD) :
    ∀ (fuel len k : Nat), p1 + len < SIZE_MOD →
      dual_tail text1 n1 text2 n2 p1 p2 fuel len = .ret k → len ≤ k := by
  intro fuel
  induction fuel with
  | zero =>
    intro len k _ h
    simp [dual_tail] at h
  | succ f ih =>
    intro len k hl h
    unfold dual_tail at h
    rw [size_add_eq hl] at h
    split at h
    · rename_i hc
      split at h
      · split at h
        · rw [size_add_eq (show len + 1 < SIZE_MOD by omega)] at h
          have := ih (len + 1) k (by omega) h
          omega
        · simp only [Outcome.ret.injEq] at h
          omega
      · simp at h
    · simp only [Outcome.ret.injEq] at h
      omega

theorem dual_bulk_ge (b : Backend) (hb : b ≠ .scalar) (text1 : List Byte) (n1 : Nat)
    (text2 : List Byte) (n2 p1 p2 : Nat) (hn1 : n1 < SIZE_MOD)
    (hlen : text1.length < SIZE_MOD) :
    ∀ (fuel len k : Nat), p1 + len < SIZE_MOD →
      dual_bulk b text1 n1 text2 n2 p1 p2 fuel len = .ret k → len ≤ k := by
  intro fuel
  induction fuel with
  | zero =>
    intro len k _ h
    simp [dual_bulk] at h
  | succ f ih =>
    intro len k hl h
    unfold dual_bulk at h
    rw [size_add_eq hl] at h
    split at h
    · split at h
      · simp at h
      · rename_i off hcmp
        have hbd := chunk_cmp_some_bounds hb hcmp
        have hoff := chunk_cmp_offset_lt hcmp
        rw [size_add_eq (show len + off < SIZE_MOD by omega)] at h
        simp only [Outcome.ret.injEq] at h
        omega
      · rename_i hcmp
        have hbd := chunk_cmp_some_bounds hb hcmp
        rw [size_add_eq (show len + b.width < SIZE_MOD by omega)] at h
        have := ih (len + b.width) k (by omega) h
        omega
    · exact dual_tail_ge text1 n1 text2 n2 p1 p2 hn1 _ len k hl h

theorem lcp_cmp_dual_ge (b : Backend) (text1 : List Byte) (n1 : Nat) (text2 : List Byte)
    (n2 p1 p2 c k : Nat) (hn1 : n1 < SIZE_MOD) (hlen : text1.length < SIZE_MOD)
    (h1 : p1 + c < SIZE_MOD) (h : lcp_cmp_dual b text1 n1 text2 n2 p1 p2 c = .ret k) :
    c ≤ k := by
  unfold lcp_cmp_dual at h
  cases b with
  | scalar => exact dual_tail_ge text1 n1 text2 n2 p1 p2 hn1 _ c k h1 h
  | native => exact dual_bulk_ge _ (by decide) text1 n1 text2 n2 p1 p2 hn1 hlen _ c k h1 h
  | sse16 => exact dual_bulk_ge _ (by decide) text1 n1 text2 n2 p1 p2 hn1 hlen _ c k h1 h
  | avx32 => exact dual_bulk_ge _ (by decide) text1 n1 text2 n2 p1 p2 hn1 hlen _ c k h1 h

/-! ## Starting at or past the end of a buffer -/

theorem dual_tail_at_end (text1 : List Byte) (n1 : Nat) (text2 : List Byte) (n2 p1 p2 : Nat)
    (fuel len : Nat) (h1 : p1 + len < SIZE_MOD) (h2 : p2 + len < SIZE_MOD)
    (hend : n1 ≤ p1 + len ∨ n2 ≤ p2 + len) :
    dual_tail text1 n1 text2 n2 p1 p2 (fuel + 1) len = .ret len := by
  unfold dual_tail
  rw [size_add_eq h1, size_add_eq h2, if_neg (by omega)]

/-- A bulk loop entered at or past the end of a buffer either returns `len`
unchanged or reads outside the buffer; on buffers of at least one chunk it
returns `len`. -/
theorem dual_bulk_at_end (b : Backend) (hb : b ≠ .scalar) (text1 text2 : List Byte)
    (p1 p2 fuel len : Nat) (hn1 : text1.length < SIZE_MOD) (hn2 : text2.length < SIZE_MOD)
    (h1 : p1 + len < SIZE_MOD) (h2 : p2 + len < SIZE_MOD)
    (hend : text1.length ≤ p1 + len ∨ text2.length ≤ p2 + len) :
    (dual_bulk b text1 text1.length text2 text2.length p1 p2 (fuel + 1) len = .ret len ∨
      dual_bulk b text1 text1.length text2 text2.length p1 p2 (fuel + 1) len = .undef) ∧
    (b.width ≤ text1.length → b.width ≤ text2.length →
      dual_bulk b text1 text1.length text2 text2.length p1 p2 (fuel + 1) len = .ret len) := by
  have hw := width_pos hb
  have htail := dual_tail_at_end text1 text1.length text2 text2.length p1 p2
    (min text1.length text2.length) len h1 h2 hend
  constructor
  · unfold dual_bulk
    rw [size_add_eq h1, size_add_eq h2]
    split
    · right
      rw [chunk_cmp_none_of_lt hb (by omega)]
    · left
      exact htail
  · intro hw1 hw2
    unfold dual_bulk
    rw [size_add_eq h1, size_add_eq h2, size_sub_eq hw1 hn1, size_sub_eq hw2 hn2,
      if_neg (by omega)]
    exact htail

theorem lcp_cmp_dual_at_end (b : Backend) (text1 text2 : List Byte) (p1 p2 c : Nat)
    (hn1 : text1.length < SIZE_MOD) (hn2 : text2.length < SIZE_MOD)
    (h1 : p1 + c < SIZE_MOD) (h2 : p2 + c < SIZE_MOD)
    (hend : text1.length ≤ p1 + c ∨ text2.length ≤ p2 + c) :
    (lcp_cmp_dual b text1 text1.length text2 text2.length p1 p2 c = .ret c ∨
      lcp_cmp_dual b text1 text1.length text2 text2.length p1 p2 c = .undef) ∧
    (b.width ≤ text1.length → b.width ≤ text2.length →
      lcp_cmp_dual b text1 text1.length text2 text2.length p1 p2 c = .ret c) := by
  unfold lcp_cmp_dual
  cases b with
  | scalar =>
    have := dual_tail_at_end text1 text1.length text2 text2.length p1 p2
      (min text1.length text2.length) c h1 h2 hend
    exact ⟨Or.inl this, fun _ _ => this⟩
  | native => exact dual_bulk_at_end _ (by decide) text1 text2 p1 p2 _ c hn1 hn2 h1 h2 hend
  | sse16 => exact dual_bulk_at_end _ (by decide) text1 text2 p1 p2 _ c hn1 hn2 h1 h2 hend
  | avx32 => exact dual_bulk_at_end _ (by decide) text1 text2 p1 p2 _ c hn1 hn2 h1 h2 hend

/-- The build without a backend returns a length on every input without
`size_t` overflow, and that length is at least `c`. -/
theorem lcp_cmp_dual_scalar_returns (text1 text2 : List Byte) (p1 p2 c : Nat)
    (hn1 : text1.length < SIZE_MOD) (hn2 : text2.length < SIZE_MOD)
    (h1 : p1 + c < SIZE_MOD) (h2 : p2 + c < SIZE_MOD) :
    ∃ k, c ≤ k ∧
      lcp_cmp_dual .scalar text1 text1.length text2 text2.length p1 p2 c = .ret k := by
  by_cases hin : p1 + c ≤ text1.length ∧ p2 + c ≤ text2.length
  · refine ⟨c + naive_lcp text1 text2 (p1 + c) (p2 + c), Nat.le_add_right _ _, ?_⟩
    unfold lcp_cmp_dual
    exact dual_tail_eq text1 text2 p1 p2 hn1 hn2 _ c hin.1 hin.2 (by omega)
  · refine ⟨c, Nat.le_refl _, ?_⟩
    exact (lcp_cmp_dual_at_end .scalar text1 text2 p1 p2 c hn1 hn2 h1 h2 (by omega)).2
      (Nat.zero_le _) (Nat.zero_le _)

/-! ## No mismatch before the end of a buffer -/

theorem naive_lcp_of_agree (text1 text2 : List Byte) (p1 p2 len : Nat)
    (h1 : p1 + len ≤ text1.length) (h2 : p2 + len ≤ text2.length)
    (hag : ∀ i, i < min (text1.length - p1) (text2.length - p2) →
      text1[p1 + i]? = text2[p2 + i]?) :
    len + naive_lcp text1 text2 (p1 + len) (p2 + len)
      = min (text1.length - p1) (text2.length - p2) := by
  unfold naive_lcp
  rw [common_prefix_len_of_agree]
  · simp only [List.length_drop]
    omega
  · intro i hi
    simp only [List.length_drop] at hi
    have := hag (len + i) (by omega)
    simpa [List.getElem?_drop, Nat.add_assoc] using this

theorem dual_bulk_of_agree (b : Backend) (hb : b ≠ .scalar) (text1 text2 : List Byte)
    (p1 p2 : Nat) (hn1 : text1.length < SIZE_MOD) (hn2 : text2.length < SIZE_MOD)
    (hw1 : b.width ≤ text1.length) (hw2 : b.width ≤ text2.length)
    (hag : ∀ i, i < min (text1.length - p1) (text2.length - p2) →
      text1[p1 + i]? = text2[p2 + i]?) :
    ∀ (fuel len : Nat), p1 + len ≤ text1.length → p2 + len ≤ text2.length →
      text1.length - (p1 + len) < fuel ∨ text2.length - (p2 + len) < fuel →
      dual_bulk b text1 text1.length text2 text2.length p1 p2 fuel len
        = .ret (min (text1.length - p1) (text2.length - p2)) := by
  have hw := width_pos hb
  intro fuel
  induction fuel with
  | zero => intro len _ _ h; omega
  | succ f ih =>
    intro len h1 h2 hf
    unfold dual_bulk
    rw [size_add_eq (by omega), size_add_eq (by omega), size_sub_eq hw1 hn1,
      size_sub_eq hw2 hn2]
    by_cases hc : p1 + len ≤ text1.length - b.width ∧ p2 + len ≤ text2.length - b.width
    · rw [if_pos hc]
      have e1 := load_bytes_of_le (show p1 + len + b.width ≤ text1.length by omega)
      have e2 := load_bytes_of_le (show p2 + len + b.width ≤ text2.length by omega)
      have heq : (text1.drop (p1 + len)).take b.width = (text2.drop (p2 + len)).take b.width := by
        apply List.ext_getElem?
        intro j
        simp only [List.getElem?_take, List.getElem?_drop]
        split
        · have := hag (len + j) (by omega)
          simpa [Nat.add_assoc] using this
        · rfl
      rw [heq] at e1
      rw [chunk_cmp_of_eq e1 e2]
      simp only
      rw [size_add_eq (by omega)]
      exact ih (len + b.width) (by omega) (by omega) (by omega)
    · rw [if_neg hc, dual_tail_eq text1 text2 p1 p2 hn1 hn2 _ len h1 h2 (by omega),
        naive_lcp_of_agree text1 text2 p1 p2 len h1 h2 hag]

/-- If the two suffixes agree up to the end of the shorter one, `lcp_cmp_dual`
returns the distance to that end, in every build on buffers of at least one chunk. -/
theorem lcp_cmp_dual_of_agree (b : Backend) (text1 text2 : List Byte) (p1 p2 c : Nat)
    (hn1 : text1.length < SIZE_MOD) (hn2 : text2.length < SIZE_MOD)
    (hw1 : b.width ≤ text1.length) (hw2 : b.width ≤ text2.length)
    (h1 : p1 + c ≤ text1.length) (h2 : p2 + c ≤ text2.length)
    (hag : ∀ i, i < min (text1.length - p1) (text2.length - p2) →
      text1[p1 + i]? = text2[p2 + i]?) :
    lcp_cmp_dual b text1 text1.length text2 text2.length p1 p2 c
      = .ret (min (text1.length - p1) (text2.length - p2)) := by
  unfold lcp_cmp_dual
  cases b with
  | scalar =>
    simp only
    rw [dual_tail_eq text1 text2 p1 p2 hn1 hn2 _ c h1 h2 (by omega),
      naive_lcp_of_agree text1 text2 p1 p2 c h1 h2 hag]
  | native =>
    exact dual_bulk_of_agree _ (by decide) text1 text2 p1 p2 hn1 hn2 hw1 hw2 hag _ c h1 h2
      (by omega)
  | sse16 =>
    exact dual_bulk_of_agree _ (by decide) text1 text2 p1 p2 hn1 hn2 hw1 hw2 hag _ c h1 h2
      (by omega)
  | avx32 =>
    exact dual_bulk_of_agree _ (by decide) text1 text2 p1 p2 hn1 hn2 hw1 hw2 hag _ c h1 h2
      (by omega)

/-! ## Bytes below the starting offset are not read -/

/-- On a buffer shorter than one chunk the subtraction `text_len - W` wraps around,
the guard of the bulk loop holds for every in-range offset (with room left in the
other buffer), and the chunk read leaves the short buffer. -/
theorem dual_bulk_short_buffer (b : Backend) (hb : b ≠ .scalar) (text1 text2 : List Byte)
    (p1 p2 fuel len : Nat) (hn1 : text1.length < SIZE_MOD) (hn2 : text2.length < SIZE_MOD)
    (hs : text1.length < b.width)
    (h1 : p1 + len ≤ text1.length) (h2 : p2 + len ≤ text2.length)
    (hroom : text2.length < b.width ∨ p2 + len + b.width ≤ text2.length) :
    dual_bulk b text1 text1.length text2 text2.length p1 p2 (fuel + 1) len = .undef := by
  have hw := width_lt_size_mod b
  unfold dual_bulk
  rw [size_add_eq (by omega), size_add_eq (by omega), size_sub_wrap hs hw]
  have hc2 : p2 + len ≤ size_sub text2.length b.width := by
    rcases Nat.lt_or_ge text2.length b.width with h | h
    · rw [size_sub_wrap h hw]
      omega
    · rw [size_sub_eq h hn2]
      omega
  rw [if_pos ⟨by omega, hc2⟩, chunk_cmp_none_of_lt hb (Or.inl (by omega))]

/-- Every chunk build of `lcp_cmp_dual` reads outside a first buffer that is
shorter than one chunk, whenever the guard on the second buffer lets it. -/
theorem lcp_cmp_dual_short_buffer (b : Backend) (hb : b ≠ .scalar) (text1 text2 : List Byte)
    (p1 p2 c : Nat) (hn1 : text1.length < SIZE_MOD) (hn2 : text2.length < SIZE_MOD)
    (hs : text1.length < b.width)
    (h1 : p1 + c ≤ text1.length) (h2 : p2 + c ≤ text2.length)
    (hroom : text2.length < b.width ∨ p2 + c + b.width ≤ text2.length) :
    lcp_cmp_dual b text1 text1.length text2 text2.length p1 p2 c = .undef := by
  unfold lcp_cmp_dual
  cases b with
  | scalar => exact absurd rfl hb
  | native => exact dual_bulk_short_buffer _ hb text1 text2 p1 p2 _ c hn1 hn2 hs h1 h2 hroom
  | sse16 => exact dual_bulk_short_buffer _ hb text1 text2 p1 p2 _ c hn1 hn2 hs h1 h2 hroom
  | avx32 => exact dual_bulk_short_buffer _ hb text1 text2 p1 p2 _ c hn1 hn2 hs h1 h2 hroom

/-- Every chunk build of `lcp_cmp_single` reads outside a buffer that is shorter
than one chunk, for all in-range positions. -/
theorem lcp_cmp_single_short_buffer (b : Backend) (hb : b ≠ .scalar) (text : List Byte)
    (p1 p2 c : Nat) (hn : text.length < SIZE_MOD) (hs : text.length < b.width)
    (hc : max p1 p2 + c ≤ text.length) :
    lcp_cmp_single b text text.length p1 p2 c = .undef := by
  rw [lcp_cmp_single_eq_dual b text text.length p1 p2 c hn hn (by omega) (by omega)]
  exact lcp_cmp_dual_short_buffer b hb text text p1 p2 c hn hn hs (by omega) (by omega)
    (Or.inl hs)

/-! ## Every call returns a length or reads outside a buffer -/

/-- The tail loop of `lcp_cmp_dual` always returns a length, at least `len`. -/
theorem dual_tail_returns (text1 text2 : List Byte) (p1 p2 len : Nat)
    (hn1 : text1.length < SIZE_MOD) (hn2 : text2.length < SIZE_MOD)
    (h1 : p1 + len < SIZE_MOD) (h2 : p2 + len < SIZE_MOD) :
    ∃ k, len ≤ k ∧
      dual_tail text1 text1.length text2 text2.length p1 p2
        (min text1.length text2.length + 1) len = .ret k := by
  by_cases hin : p1 + len ≤ text1.length ∧ p2 + len ≤ text2.length
  · exact ⟨_, Nat.le_add_right _ _,
      dual_tail_eq text1 text2 p1 p2 hn1 hn2 _ len hin.1 hin.2 (by omega)⟩
  · exact ⟨len, Nat.le_refl _,
      dual_tail_at_end text1 text1.length text2 text2.length p1 p2 _ len h1 h2 (by omega)⟩

theorem dual_bulk_returns_or_undef (b : Backend) (hb : b ≠ .scalar) (text1 text2 : List Byte)
    (p1 p2 : Nat) (hn1 : text1.length < SIZE_MOD) (hn2 : text2.length < SIZE_MOD) :
    ∀ (fuel len : Nat), p1 + len < SIZE_MOD → p2 + len < SIZE_MOD →
      text1.length - (p1 + len) < fuel ∨ text2.length - (p2 + len) < fuel →
      (∃ k, len ≤ k ∧
        dual_bulk b text1 text1.length text2 text2.length p1 p2 fuel len = .ret k) ∨
      dual_bulk b text1 text1.length text2 text2.length p1 p2 fuel len = .undef := by
  have hw := width_pos hb
  intro fuel
  induction fuel with
  | zero => intro len _ _ h; omega
  | succ f ih =>
    intro len h1 h2 hf
    unfold dual_bulk
    rw [size_add_eq h1, size_add_eq h2]
    split
    · cases hcmp : chunk_cmp b text1 text2 (p1 + len) (p2 + len) with
      | none => exact Or.inr rfl
      | some r =>
        have hbd := chunk_cmp_some_bounds hb hcmp
        cases r with
        | some off =>
          have hoff := chunk_cmp_offset_lt hcmp
          left
          refine ⟨len + off, Nat.le_add_right _ _, ?_⟩
          simp only
          rw [size_add_eq (by omega)]
        | none =>
          simp only
          rw [size_add_eq (show len + b.width < SIZE_MOD by omega)]
          rcases ih (len + b.width) (by omega) (by omega) (by omega) with ⟨k, hk, hr⟩ | hr
          · exact Or.inl ⟨k, by omega, hr⟩
          · exact Or.inr hr
    · exact Or.inl (dual_tail_returns text1 text2 p1 p2 len hn1 hn2 h1 h2)

/-- On inputs without `size_t` overflow every build of `lcp_cmp_dual` either
returns a length that is at least `c` or reads outside a buffer: the iteration
budget of the model is never used up. -/
theorem lcp_cmp_dual_returns_or_undef (b : Backend) (text1 text2 : List Byte) (p1 p2 c : Nat)
    (hn1 : text1.length < SIZE_MOD) (hn2 : text2.length < SIZE_MOD)
    (h1 : p1 + c < SIZE_MOD) (h2 : p2 + c < SIZE_MOD) :
    (∃ k, c ≤ k ∧ lcp_cmp_dual b text1 text1.length text2 text2.length p1 p2 c = .ret k) ∨
      lcp_cmp_dual b text1 text1.length text2 text2.length p1 p2 c = .undef := by
  unfold lcp_cmp_dual
  cases b with
  | scalar => exact Or.inl (dual_tail_returns text1 text2 p1 p2 c hn1 hn2 h1 h2)
  | native =>
    exact dual_bulk_returns_or_undef _ (by decide) text1 text2 p1 p2 hn1 hn2 _ c h1 h2
      (by omega)
  | sse16 =>
    exact dual_bulk_returns_or_undef _ (by decide) text1 text2 p1 p2 hn1 hn2 _ c h1 h2
      (by omega)
  | avx32 =>
    exact dual_bulk_returns_or_undef _ (by decide) text1 text2 p1 p2 hn1 hn2 _ c h1 h2
      (by omega)

/-- The build of `lcp_cmp_dual` without a backend computes the reference result. -/
theorem lcp_cmp_dual_scalar_eq (text1 text2 : List Byte) (p1 p2 c : Nat)
    (hn1 : text1.length < SIZE_MOD) (hn2 : text2.length < SIZE_MOD)
    (hv : ValidBound text1 text2 p1 p2 c) :
    lcp_cmp_dual .scalar text1 text1.length text2 text2.length p1 p2 c
      = .ret (naive_lcp text1 text2 p1 p2) := by
  unfold lcp_cmp_dual
  simp only
  rw [dual_tail_eq text1 text2 p1 p2 hn1 hn2 _ c hv.1 hv.2.1 (by omega),
    naive_lcp_resume text1 text2 p1 p2 c hv]

/-! ## `lcp_cmp_single` through `lcp_cmp_dual` -/

theorem lcp_cmp_single_ge (b : Backend) (text : List Byte) (p1 p2 c k : Nat)
    (hn : text.length < SIZE_MOD) (h1 : p1 + c < SIZE_MOD) (h2 : p2 + c < SIZE_MOD)
    (h : lcp_cmp_single b text text.length p1 p2 c = .ret k) : c ≤ k := by
  rw [lcp_cmp_single_eq_dual b text text.length p1 p2 c hn hn h1 h2] at h
  exact lcp_cmp_dual_ge b text text.length text text.length p1 p2 c k hn hn h1 h

theorem lcp_cmp_single_at_end (b : Backend) (text : List Byte) (p1 p2 c : Nat)
    (hn : text.length < SIZE_MOD) (h1 : p1 + c < SIZE_MOD) (h2 : p2 + c < SIZE_MOD)
    (hend : text.length ≤ max p1 p2 + c) :
    (lcp_cmp_single b text text.length p1 p2 c = .ret c ∨
      lcp_cmp_single b text text.length p1 p2 c = .undef) ∧
    (b.width ≤ text.length → lcp_cmp_single b text text.length p1 p2 c = .ret c) := by
  rw [lcp_cmp_single_eq_dual b text text.length p1 p2 c hn hn h1 h2]
  have := lcp_cmp_dual_at_end b text text p1 p2 c hn hn h1 h2 (by omega)
  exact ⟨this.1, fun hw => this.2 hw hw⟩

theorem lcp_cmp_single_returns_or_undef (b : Backend) (text : List Byte) (p1 p2 c : Nat)
    (hn : text.length < SIZE_MOD) (h1 : p1 + c < SIZE_MOD) (h2 : p2 + c < SIZE_MOD) :
    (∃ k, c ≤ k ∧ lcp_cmp_single b text text.length p1 p2 c = .ret k) ∨
      lcp_cmp_single b text text.length p1 p2 c = .undef := by
  rw [lcp_cmp_single_eq_dual b text text.length p1 p2 c hn hn h1 h2]
  exact lcp_cmp_dual_returns_or_undef b text text p1 p2 c hn hn h1 h2

theorem lcp_cmp_single_scalar_returns (text : List Byte) (p1 p2 c : Nat)
    (hn : text.length < SIZE_MOD) (h1 : p1 + c < SIZE_MOD) (h2 : p2 + c < SIZE_MOD) :
    ∃ k, c ≤ k ∧ lcp_cmp_single .scalar text text.length p1 p2 c = .ret k := by
  rw [lcp_cmp_single_eq_dual .scalar text text.length p1 p2 c hn hn h1 h2]
  exact lcp_cmp_dual_scalar_returns text text p1 p2 c hn hn h1 h2

theorem lcp_cmp_single_of_agree (b : Backend) (text : List Byte) (p1 p2 c : Nat)
    (hn : text.length < SIZE_MOD) (hw : b.width ≤ text.length)
    (hc : max p1 p2 + c ≤ text.length)
    (hag : ∀ i, i < text.length - max p1 p2 → text[p1 + i]? = text[p2 + i]?) :
    lcp_cmp_single b text text.length p1 p2 c = .ret (text.length - max p1 p2) := by
  rw [lcp_cmp_single_eq_dual b text text.length p1 p2 c hn hn (by omega) (by omega),
    lcp_cmp_dual_of_agree b text text p1 p2 c hn hn hw hw (by omega) (by omega)
      (fun i hi => hag i (by omega))]
  congr 1
  omega

theorem ctz_bits_two_mul (w x : Nat) : ctz_bits (w + 1) (2 * x) = 1 + ctz_bits w x := by
  have h1 : (2 * x) % 2 ≠ 1 := by omega
  have h2 : (2 * x) / 2 = x := by omega
  simp only [ctz_bits, h1, if_false, h2]

theorem ctz_bits_mul_256 (w x : Nat) : ctz_bits (w + 8) (256 * x) = 8 + ctz_bits w x := by
  have e : ∀ (v y : Nat), ctz_bits (v + 1) (2 * y) = 1 + ctz_bits v y := ctz_bits_two_mul
  have h : 256 * x = 2 * (2 * (2 * (2 * (2 * (2 * (2 * (2 * x))))))) := by omega
  rw [h, show w + 8 = w + 7 + 1 from rfl, e, show w + 7 = w + 6 + 1 from rfl, e,
    show w + 6 = w + 5 + 1 from rfl, e, show w + 5 = w + 4 + 1 from rfl, e,
    show w + 4 = w + 3 + 1 from rfl, e, show w + 3 = w + 2 + 1 from rfl, e,
    show w + 2 = w + 1 + 1 from rfl, e, e]
  omega

/-- A number with a set bit among its low `k` bits has fewer than `k` trailing
zero bits. -/
theorem ctz_bits_lt_of_mod (w : Nat) : ∀ (k x : Nat), x % 2 ^ k ≠ 0 → k ≤ w →
    ctz_bits w x < k := by
  induction w with
  | zero =>
    intro k x hx hk
    have hk0 : k = 0 := by omega
    subst hk0
    exact absurd (Nat.mod_one x) (by simpa using hx)
  | succ w ih =>
    intro k x hx hk
    cases k with
    | zero => exact absurd (Nat.mod_one x) (by simpa using hx)
    | succ j =>
      unfold ctz_bits
      split
      · omega
      · rename_i hodd
        have h2 : x = 2 * (x / 2) := by omega
        have hx2 : (x / 2) % 2 ^ j ≠ 0 := by
          intro h0
          apply hx
          rw [h2, Nat.pow_succ, Nat.mul_comm (2 ^ j) 2, Nat.mul_mod_mul_left, h0]
        have := ih j (x / 2) hx2 (by omega)
        omega

/-- The exclusive or of two little-endian values splits into the exclusive or of
the lowest bytes and that of the rest. -/
theorem xor_byte_split (a b A B : Nat) (ha : a < 256) (hb : b < 256) :
    (a + 256 * A) ^^^ (b + 256 * B) = (a ^^^ b) + 256 * (A ^^^ B) := by
  have hab : a ^^^ b < 2 ^ 8 := Nat.xor_lt_two_pow (by simpa using ha) (by simpa using hb)
  apply Nat.eq_of_testBit_eq
  intro i
  have e1 : a + 256 * A = 2 ^ 8 * A + a := by omega
  have e2 : b + 256 * B = 2 ^ 8 * B + b := by omega
  have e3 : (a ^^^ b) + 256 * (A ^^^ B) = 2 ^ 8 * (A ^^^ B) + (a ^^^ b) := by omega
  rw [Nat.testBit_xor, e1, e2, e3,
    Nat.testBit_mul_pow_two_add A (by simpa using ha),
    Nat.testBit_mul_pow_two_add B (by simpa using hb),
    Nat.testBit_mul_pow_two_add (A ^^^ B) hab]
  split <;> simp [Nat.testBit_xor]

/-- Two byte strings of one length are equal exactly when their common prefix is
the whole string. -/
theorem common_prefix_len_eq_length_iff (xs ys : List Byte) (hl : xs.length = ys.length) :
    common_prefix_len xs ys = xs.length ↔ xs = ys := by
  induction xs generalizing ys with
  | nil =>
    cases ys with
    | nil => simp [common_prefix_len]
    | cons c cs => simp at hl
  | cons a as ih =>
    cases ys with
    | nil => simp at hl
    | cons c cs =>
      simp only [List.length_cons, Nat.add_right_cancel_iff] at hl
      simp only [common_prefix_len, List.length_cons, List.cons.injEq]
      by_cases hac : a = c
      · simp only [hac, if_true, true_and]
        rw [← ih cs hl]
        omega
      · simp only [hac, if_false, false_and, iff_false]
        omega

theorem common_prefix_len_lt_of_ne (xs ys : List Byte) (hl : xs.length = ys.length)
    (hne : xs ≠ ys) : common_prefix_len xs ys < xs.length := by
  have h1 := common_prefix_len_le_left xs ys
  have h2 := (common_prefix_len_eq_length_iff xs ys hl).not.mpr hne
  omega

/-- The common prefix of two chunks is the common prefix of the strings they were
taken from, cut at the chunk width. -/
theorem common_prefix_len_take (w : Nat) (xs ys : List Byte) :
    common_prefix_len (xs.take w) (ys.take w) = min w (common_prefix_len xs ys) := by
  induction w generalizing xs ys with
  | zero => simp [common_prefix_len]
  | succ w ih =>
    cases xs with
    | nil => simp [common_prefix_len]
    | cons a as =>
      cases ys with
      | nil => simp [common_prefix_len]
      | cons c cs =>
        simp only [List.take_succ_cons, common_prefix_len]
        split
        · rw [ih as cs]
          omega
        · omega

theorem le_value_injective (v1 v2 : List Byte) (hl : v1.length = v2.length)
    (h : le_value v1 = le_value v2) : v1 = v2 := by
  induction v1 generalizing v2 with
  | nil =>
    cases v2 with
    | nil => rfl
    | cons c cs => simp at hl
  | cons a as ih =>
    cases v2 with
    | nil => simp at hl
    | cons c cs =>
      simp only [List.length_cons, Nat.add_right_cancel_iff] at hl
      simp only [le_value] at h
      have ha := a.isLt
      have hc := c.isLt
      have h1 : a.val = c.val := by omega
      have h2 : le_value as = le_value cs := by omega
      rw [Fin.ext h1, ih cs hl h2]

/-- Native-word backend: `diff = val1 ^ val2` is zero exactly when the chunks are
equal. -/
theorem le_value_xor_eq_zero_iff (v1 v2 : List Byte) (hl : v1.length = v2.length) :
    le_value v1 ^^^ le_value v2 = 0 ↔ v1 = v2 := by
  rw [Nat.xor_eq_zero]
  exact ⟨le_value_injective v1 v2 hl, fun h => by rw [h]⟩

/-- Native-word backend: for two different chunks, the count of trailing zero bits
of `diff`, shifted right by 3, is the length of their common prefix. -/
theorem ctz_le_value_xor (v1 : List Byte) : ∀ (v2 : List Byte) (w : Nat),
    v1.length = v2.length → 8 * v1.length ≤ w → v1 ≠ v2 →
    ctz_bits w (le_value v1 ^^^ le_value v2) / 8 = common_prefix_len v1 v2 := by
  induction v1 with
  | nil =>
    intro v2 w hl _ hne
    cases v2 with
    | nil => exact absurd rfl hne
    | cons c cs => simp at hl
  | cons a as ih =>
    intro v2 w hl hw hne
    cases v2 with
    | nil => simp at hl
    | cons c cs =>
      simp only [List.length_cons, Nat.add_right_cancel_iff] at hl
      simp only [List.length_cons] at hw
      obtain ⟨w', rfl⟩ : ∃ w', w = w' + 8 := ⟨w - 8, by omega⟩
      simp only [le_value, common_prefix_len]
      rw [xor_byte_split _ _ _ _ a.isLt c.isLt]
      by_cases hac : a = c
      · have hne2 : as ≠ cs := fun h => hne (by rw [hac, h])
        rw [if_pos hac, hac, Nat.xor_self, Nat.zero_add, ctz_bits_mul_256,
          ← ih cs w' hl (by omega) hne2]
        omega
      · rw [if_neg hac]
        have hd : a.val ^^^ c.val ≠ 0 := by
          rw [Ne, Nat.xor_eq_zero]
          exact fun h => hac (Fin.ext h)
        have hlt : a.val ^^^ c.val < 2 ^ 8 :=
          Nat.xor_lt_two_pow (by simp) (by simp)
        have hmod : ((a.val ^^^ c.val) + 256 * (le_value as ^^^ le_value cs)) % 2 ^ 8 ≠ 0 := by
          have : (2 : Nat) ^ 8 = 256 := by norm_num
          rw [this] at hlt ⊢
          omega
        have := ctz_bits_lt_of_mod (w' + 8) 8 _ hmod (by omega)
        omega

/-- Vector backends: the comparison mask and the mismatch mask are complements
within the chunk. -/
theorem movemask_add_mismatch_mask (v1 : List Byte) : ∀ (v2 : List Byte),
    v1.length = v2.length →
    mm_movemask_epi8 (mm_cmpeq_epi8 v1 v2) + mismatch_mask v1 v2 = 2 ^ v1.length - 1 := by
  induction v1 with
  | nil =>
    intro v2 hl
    cases v2 with
    | nil => simp [mm_cmpeq_epi8, mm_movemask_epi8, mismatch_mask]
    | cons c cs => simp at hl
  | cons a as ih =>
    intro v2 hl
    cases v2 with
    | nil => simp at hl
    | cons c cs =>
      simp only [List.length_cons, Nat.add_right_cancel_iff] at hl
      have := ih cs hl
      have hpos : 0 < 2 ^ as.length := Nat.pos_pow_of_pos _ (by norm_num)
      have h255 : ((0xFF : Byte).val) / 128 = 1 := by decide
      have h0 : ((0x00 : Byte).val) / 128 = 0 := by decide
      simp only [mm_cmpeq_epi8, mm_movemask_epi8, mismatch_mask, List.length_cons, Nat.pow_succ]
      by_cases hac : a = c
      · simp only [hac, if_true, h255]
        omega
      · simp only [hac, if_false, h0]
        omega

theorem mismatch_mask_eq_zero_iff (v1 : List Byte) : ∀ (v2 : List Byte),
    v1.length = v2.length → (mismatch_mask v1 v2 = 0 ↔ v1 = v2) := by
  induction v1 with
  | nil =>
    intro v2 hl
    cases v2 with
    | nil => simp [mismatch_mask]
    | cons c cs => simp at hl
  | cons a as ih =>
    intro v2 hl
    cases v2 with
    | nil => simp at hl
    | cons c cs =>
      simp only [List.length_cons, Nat.add_right_cancel_iff] at hl
      have := ih cs hl
      simp only [mismatch_mask, List.cons.injEq]
      by_cases hac : a = c
      · simp only [hac, if_true, true_and, ← this]
        omega
      · simp only [hac, if_false, false_and, iff_false]
        omega

/-- Vector backends: for two different chunks, the count of trailing zero bits of
the mismatch mask is the length of their common prefix. -/
theorem ctz_mismatch_mask (v1 : List Byte) : ∀ (v2 : List Byte) (w : Nat),
    v1.length = v2.length → v1.length ≤ w → v1 ≠ v2 →
    ctz_bits w (mismatch_mask v1 v2) = common_prefix_len v1 v2 := by
  induction v1 with
  | nil =>
    intro v2 w hl _ hne
    cases v2 with
    | nil => exact absurd rfl hne
    | cons c cs => simp at hl
  | cons a as ih =>
    intro v2 w hl hw hne
    cases v2 with
    | nil => simp at hl
    | cons c cs =>
      simp only [List.length_cons, Nat.add_right_cancel_iff] at hl
      simp only [List.length_cons] at hw
      obtain ⟨w', rfl⟩ : ∃ w', w = w' + 1 := ⟨w - 1, by omega⟩
      simp only [mismatch_mask, common_prefix_len]
      by_cases hac : a = c
      · have hne2 : as ≠ cs := fun h => hne (by rw [hac, h])
        rw [if_pos hac, if_pos hac, Nat.zero_add, ctz_bits_two_mul,
          ih cs w' hl (by omega) hne2]
      · rw [if_neg hac, if_neg hac]
        have hodd : (1 + 2 * mismatch_mask as cs) % 2 = 1 := by omega
        simp only [ctz_bits, hodd, if_true]

/-- The 16-byte backend: `diff = ~cmpmask & 0xffff` is the mismatch mask. -/
theorem diff_sse16_eq (v1 v2 : List Byte) (h1 : v1.length = 16) (h2 : v2.length = 16) :
    int_not (mm_movemask_epi8 (mm_cmpeq_epi8 v1 v2)) &&& 0x0000ffff = mismatch_mask v1 v2 := by
  have h := movemask_add_mismatch_mask v1 v2 (by rw [h1, h2])
  rw [h1] at h
  have e : (0x0000ffff : Nat) = 2 ^ 16 - 1 := by norm_num
  rw [e, Nat.and_pow_two_sub_one_eq_mod]
  unfold int_not
  have p16 : (2 : Nat) ^ 16 = 65536 := by norm_num
  have p32 : (2 : Nat) ^ 32 = 4294967296 := by norm_num
  rw [p16] at h ⊢
  rw [p32]
  omega

/-- The 32-byte backend: `diff = ~cmpmask` is the mismatch mask. -/
theorem diff_avx32_eq (v1 v2 : List Byte) (h1 : v1.length = 32) (h2 : v2.length = 32) :
    int_not (mm_movemask_epi8 (mm_cmpeq_epi8 v1 v2)) = mismatch_mask v1 v2 := by
  have h := movemask_add_mismatch_mask v1 v2 (by rw [h1, h2])
  rw [h1] at h
  unfold int_not
  have p32 : (2 : Nat) ^ 32 = 4294967296 := by norm_num
  rw [p32] at h ⊢
  omega

/-- What one bulk-loop iteration does with two chunks that lie inside their
buffers: equal chunks give `diff == 0`, different chunks give the index of their
first differing byte. -/
theorem chunk_cmp_eq {b : Backend} (hb : b ≠ .scalar) {t1 t2 : List Byte} {o1 o2 : Nat}
    {v1 v2 : List Byte} (h1 : load_bytes t1 o1 b.width = some v1)
    (h2 : load_bytes t2 o2 b.width = some v2) :
    chunk_cmp b t1 t2 o1 o2
      = some (if v1 = v2 then none else some (common_prefix_len v1 v2)) := by
  have hl1 := (load_bytes_some h1).2.2
  have hl2 := (load_bytes_some h2).2.2
  by_cases hv : v1 = v2
  · rw [if_pos hv]
    rw [hv] at h1
    exact chunk_cmp_of_eq h1 h2
  · rw [if_neg hv]
    cases b with
    | scalar => exact absurd rfl hb
    | native =>
      simp only [Backend.width] at h1 h2 hl1 hl2
      have hd : le_value v1 ^^^ le_value v2 ≠ 0 :=
        (le_value_xor_eq_zero_iff v1 v2 (by rw [hl1, hl2])).not.mpr hv
      have hk := ctz_le_value_xor v1 v2 64 (by rw [hl1, hl2]) (by omega) hv
      simp only [chunk_cmp, read_ulong, h1, h2, Option.map_some', ne_eq, hd, not_false_eq_true,
        if_true, builtin_ctzl, Nat.shiftRight_eq_div_pow]
      rw [← hk]
    | sse16 =>
      simp only [Backend.width] at h1 h2 hl1 hl2
      have hd : mismatch_mask v1 v2 ≠ 0 :=
        (mismatch_mask_eq_zero_iff v1 v2 (by rw [hl1, hl2])).not.mpr hv
      have hk := ctz_mismatch_mask v1 v2 32 (by rw [hl1, hl2]) (by omega) hv
      simp only [chunk_cmp, h1, h2, diff_sse16_eq v1 v2 hl1 hl2, ne_eq, hd, not_false_eq_true,
        if_true, builtin_ctz, hk]
    | avx32 =>
      simp only [Backend.width] at h1 h2 hl1 hl2
      have hd : mismatch_mask v1 v2 ≠ 0 :=
        (mismatch_mask_eq_zero_iff v1 v2 (by rw [hl1, hl2])).not.mpr hv
      have hk := ctz_mismatch_mask v1 v2 32 (by rw [hl1, hl2]) (by omega) hv
      simp only [chunk_cmp, h1, h2, diff_avx32_eq v1 v2 hl1 hl2, ne_eq, hd, not_false_eq_true,
        if_true, builtin_ctz, hk]

/-! ## The chunk builds on buffers of at least one chunk -/

/-- The bulk loop of `lcp_cmp_dual`, started at an in-range offset on buffers of at
least one chunk, returns `len` plus the reference result of the remaining suffixes. -/
theorem dual_bulk_eq (b : Backend) (hb : b ≠ .scalar) (text1 text2 : List Byte)
    (p1 p2 : Nat) (hn1 : text1.length < SIZE_MOD) (hn2 : text2.length < SIZE_MOD)
    (hw1 : b.width ≤ text1.length) (hw2 : b.width ≤ text2.length) :
    ∀ (fuel len : Nat), p1 + len ≤ text1.length → p2 + len ≤ text2.length →
      text1.length - (p1 + len) < fuel ∨ text2.length - (p2 + len) < fuel →
      dual_bulk b text1 text1.length text2 text2.length p1 p2 fuel len
        = .ret (len + naive_lcp text1 text2 (p1 + len) (p2 + len)) := by
  have hw := width_pos hb
  intro fuel
  induction fuel with
  | zero => intro len _ _ h; omega
  | succ f ih =>
    intro len h1 h2 hf
    unfold dual_bulk
    rw [size_add_eq (by omega), size_add_eq (by omega), size_sub_eq hw1 hn1,
      size_sub_eq hw2 hn2]
    by_cases hc : p1 + len ≤ text1.length - b.width ∧ p2 + len ≤ text2.length - b.width
    · rw [if_pos hc]
      have e1 := load_bytes_of_le (show p1 + len + b.width ≤ text1.length by omega)
      have e2 := load_bytes_of_le (show p2 + len + b.width ≤ text2.length by omega)
      rw [chunk_cmp_eq hb e1 e2]
      have htake := common_prefix_len_take b.width (text1.drop (p1 + len))
        (text2.drop (p2 + len))
      have hlen1 : ((text1.drop (p1 + len)).take b.width).length = b.width := by
        rw [List.length_take, List.length_drop]
        omega
      have hlen2 : ((text2.drop (p2 + len)).take b.width).length = b.width := by
        rw [List.length_take, List.length_drop]
        omega
      by_cases hv : (text1.drop (p1 + len)).take b.width = (text2.drop (p2 + len)).take b.width
      · rw [if_pos hv]
        simp only
        have hfull := (common_prefix_len_eq_length_iff _ _ (by rw [hlen1, hlen2])).mpr hv
        rw [hlen1] at hfull
        have hge : b.width ≤ common_prefix_len (text1.drop (p1 + len))
            (text2.drop (p2 + len)) := by omega
        have hres := naive_lcp_resume text1 text2 (p1 + len) (p2 + len) b.width
          ⟨by omega, by omega, fun i hi => by
            have := common_prefix_len_agree (text1.drop (p1 + len)) (text2.drop (p2 + len)) i
              (by omega)
            simpa [List.getElem?_drop] using this⟩
        rw [size_add_eq (by omega), ih (len + b.width) (by omega) (by omega) (by omega), hres]
        simp only [Nat.add_assoc]
      · rw [if_neg hv]
        simp only
        have hlt := common_prefix_len_lt_of_ne _ _ (by rw [hlen1, hlen2]) hv
        rw [hlen1] at hlt
        have heq : common_prefix_len ((text1.drop (p1 + len)).take b.width)
            ((text2.drop (p2 + len)).take b.width) = naive_lcp text1 text2 (p1 + len)
              (p2 + len) := by
          unfold naive_lcp
          omega
        rw [heq, size_add_eq]
        have := (naive_lcp_isGreatest text1 text2 (p1 + len) (p2 + len) (by omega)
          (by omega)).1.1
        omega
    · rw [if_neg hc]
      exact dual_tail_eq text1 text2 p1 p2 hn1 hn2 _ len h1 h2 (by omega)

/-- Every build of `lcp_cmp_dual` computes the reference result on buffers of at
least one chunk, for a valid lower bound. -/
theorem lcp_cmp_dual_eq (b : Backend) (text1 text2 : List Byte) (p1 p2 c : Nat)
    (hn1 : text1.length < SIZE_MOD) (hn2 : text2.length < SIZE_MOD)
    (hw1 : b.width ≤ text1.length) (hw2 : b.width ≤ text2.length)
    (hv : ValidBound text1 text2 p1 p2 c) :
    lcp_cmp_dual b text1 text1.length text2 text2.length p1 p2 c
      = .ret (naive_lcp text1 text2 p1 p2) := by
  rw [naive_lcp_resume text1 text2 p1 p2 c hv]
  unfold lcp_cmp_dual
  cases b with
  | scalar => exact dual_tail_eq text1 text2 p1 p2 hn1 hn2 _ c hv.1 hv.2.1 (by omega)
  | native =>
    exact dual_bulk_eq _ (by decide) text1 text2 p1 p2 hn1 hn2 hw1 hw2 _ c hv.1 hv.2.1
      (by omega)
  | sse16 =>
    exact dual_bulk_eq _ (by decide) text1 text2 p1 p2 hn1 hn2 hw1 hw2 _ c hv.1 hv.2.1
      (by omega)
  | avx32 =>
    exact dual_bulk_eq _ (by decide) text1 text2 p1 p2 hn1 hn2 hw1 hw2 _ c hv.1 hv.2.1
      (by omega)

/-- Every build of `lcp_cmp_single` computes the reference result on a buffer of at
least one chunk, for a valid lower bound. -/
theorem lcp_cmp_single_eq (b : Backend) (text : List Byte) (p1 p2 c : Nat)
    (hn : text.length < SIZE_MOD) (hw : b.width ≤ text.length)
    (hv : ValidBound text text p1 p2 c) :
    lcp_cmp_single b text text.length p1 p2 c = .ret (naive_lcp text text p1 p2) := by
  have h1 := hv.1
  have h2 := hv.2.1
  rw [lcp_cmp_single_eq_dual b text text.length p1 p2 c hn hn (by omega) (by omega)]
  exact lcp_cmp_dual_eq b text text p1 p2 c hn hn hw hw hv

/-- From any in-range offset, valid lower bound or not, every build of
`lcp_cmp_dual` returns `c` plus the reference result of the suffixes at offset `c`,
on buffers of at least one chunk. -/
theorem lcp_cmp_dual_eq_from (b : Backend) (text1 text2 : List Byte) (p1 p2 c : Nat)
    (hn1 : text1.length < SIZE_MOD) (hn2 : text2.length < SIZE_MOD)
    (hw1 : b.width ≤ text1.length) (hw2 : b.width ≤ text2.length)
    (h1 : p1 + c ≤ text1.length) (h2 : p2 + c ≤ text2.length) :
    lcp_cmp_dual b text1 text1.length text2 text2.length p1 p2 c
      = .ret (c + naive_lcp text1 text2 (p1 + c) (p2 + c)) := by
  unfold lcp_cmp_dual
  cases b with
  | scalar => exact dual_tail_eq text1 text2 p1 p2 hn1 hn2 _ c h1 h2 (by omega)
  | native =>
    exact dual_bulk_eq _ (by decide) text1 text2 p1 p2 hn1 hn2 hw1 hw2 _ c h1 h2 (by omega)
  | sse16 =>
    exact dual_bulk_eq _ (by decide) text1 text2 p1 p2 hn1 hn2 hw1 hw2 _ c h1 h2 (by omega)
  | avx32 =>
    exact dual_bulk_eq _ (by decide) text1 text2 p1 p2 hn1 hn2 hw1 hw2 _ c h1 h2 (by omega)

/-- On buffers of at least one chunk every build of `lcp_cmp_dual` returns a
length on every input without `size_t` overflow: no read leaves a buffer. -/
theorem lcp_cmp_dual_returns (b : Backend) (text1 text2 : List Byte) (p1 p2 c : Nat)
    (hn1 : text1.length < SIZE_MOD) (hn2 : text2.length < SIZE_MOD)
    (hw1 : b.width ≤ text1.length) (hw2 : b.width ≤ text2.length)
    (h1 : p1 + c < SIZE_MOD) (h2 : p2 + c < SIZE_MOD) :
    ∃ k, c ≤ k ∧ lcp_cmp_dual b text1 text1.length text2 text2.length p1 p2 c = .ret k := by
  by_cases hin : p1 + c ≤ text1.length ∧ p2 + c ≤ text2.length
  · exact ⟨_, Nat.le_add_right _ _,
      lcp_cmp_dual_eq_from b text1 text2 p1 p2 c hn1 hn2 hw1 hw2 hin.1 hin.2⟩
  · exact ⟨c, Nat.le_refl _,
      (lcp_cmp_dual_at_end b text1 text2 p1 p2 c hn1 hn2 h1 h2 (by omega)).2 hw1 hw2⟩

theorem lcp_cmp_single_returns (b : Backend) (text : List Byte) (p1 p2 c : Nat)
    (hn : text.length < SIZE_MOD) (hw : b.width ≤ text.length)
    (h1 : p1 + c < SIZE_MOD) (h2 : p2 + c < SIZE_MOD) :
    ∃ k, c ≤ k ∧ lcp_cmp_single b text text.length p1 p2 c = .ret k := by
  rw [lcp_cmp_single_eq_dual b text text.length p1 p2 c hn hn h1 h2]
  exact lcp_cmp_dual_returns b text text p1 p2 c hn hn hw hw h1 h2

/-! ## The result as a lower bound of a second call -/

theorem common_prefix_len_drop_self (xs : List Byte) : ∀ (ys : List Byte),
    common_prefix_len (xs.drop (common_prefix_len xs ys))
      (ys.drop (common_prefix_len xs ys)) = 0 := by
  induction xs with
  | nil => intro ys; simp [common_prefix_len]
  | cons a as ih =>
    intro ys
    cases ys with
    | nil => simp [common_prefix_len]
    | cons c cs =>
      by_cases hac : a = c
      · simp only [common_prefix_len, hac, if_true]
        rw [Nat.add_comm 1, List.drop_succ_cons, List.drop_succ_cons]
        exact ih cs
      · simp [common_prefix_len, hac]

/-- On buffers of at least one chunk, a length returned by `lcp_cmp_dual` from an
in-range offset is returned again when it is passed back as `common_len`. -/
theorem lcp_cmp_dual_fixed (b : Backend) (text1 text2 : List Byte) (p1 p2 c k : Nat)
    (hn1 : text1.length < SIZE_MOD) (hn2 : text2.length < SIZE_MOD)
    (hw1 : b.width ≤ text1.length) (hw2 : b.width ≤ text2.length)
    (h1 : p1 + c ≤ text1.length) (h2 : p2 + c ≤ text2.length)
    (hk : lcp_cmp_dual b text1 text1.length text2 text2.length p1 p2 c = .ret k) :
    lcp_cmp_dual b text1 text1.length text2 text2.length p1 p2 k = .ret k := by
  rw [lcp_cmp_dual_eq_from b text1 text2 p1 p2 c hn1 hn2 hw1 hw2 h1 h2] at hk
  have hk' := Outcome.ret.inj hk
  have hg := (naive_lcp_isGreatest text1 text2 (p1 + c) (p2 + c) h1 h2).1
  have hg1 : p1 + c + naive_lcp text1 text2 (p1 + c) (p2 + c) ≤ text1.length := hg.1
  have hg2 : p2 + c + naive_lcp text1 text2 (p1 + c) (p2 + c) ≤ text2.length := hg.2.1
  rw [lcp_cmp_dual_eq_from b text1 text2 p1 p2 k hn1 hn2 hw1 hw2 (by omega) (by omega)]
  have hz : naive_lcp text1 text2 (p1 + k) (p2 + k) = 0 := by
    have := common_prefix_len_drop_self (text1.drop (p1 + c)) (text2.drop (p2 + c))
    simp only [List.drop_drop] at this
    unfold naive_lcp at hk' ⊢
    rw [← hk', ← Nat.add_assoc, ← Nat.add_assoc]
    exact this
  rw [hz]
  rfl

/-! ## The memory accesses of a call -/

theorem single_tail_reads_eq_dual (text : List Byte) (n p1 p2 : Nat) (hp : p1 ≤ p2)
    (hn : n < SIZE_MOD) :
    ∀ (fuel len : Nat), p2 + len < SIZE_MOD →
      single_tail_reads text n p1 p2 fuel len = dual_tail_reads text n text n p1 p2 fuel len := by
  intro fuel
  induction fuel with
  | zero => intro len _; rfl
  | succ f ih =>
    intro len hlen
    unfold single_tail_reads dual_tail_reads
    rw [size_add_eq hlen, size_add_eq (show p1 + len < SIZE_MOD by omega)]
    by_cases hc : p2 + len < n
    · rw [if_pos hc, if_pos (show p1 + len < n ∧ p2 + len < n from ⟨by omega, hc⟩)]
      rw [size_add_eq (show len + 1 < SIZE_MOD by omega)]
      rw [ih (len + 1) (by omega)]
    · rw [if_neg hc, if_neg (fun h => hc h.2)]

theorem single_bulk_reads_eq_dual (b : Backend) (hb : b ≠ .scalar) (text : List Byte)
    (n p1 p2 : Nat) (hp : p1 ≤ p2) (hn : n < SIZE_MOD) (hlen : text.length < SIZE_MOD) :
    ∀ (fuel len : Nat), p2 + len < SIZE_MOD →
      single_bulk_reads b text n p1 p2 fuel len
        = dual_bulk_reads b text n text n p1 p2 fuel len := by
  intro fuel
  induction fuel with
  | zero => intro len _; rfl
  | succ f ih =>
    intro len hl
    unfold single_bulk_reads dual_bulk_reads
    rw [size_add_eq hl, size_add_eq (show p1 + len < SIZE_MOD by omega)]
    by_cases hc : p2 + len ≤ size_sub n b.width
    · rw [if_pos hc, if_pos (show p1 + len ≤ size_sub n b.width ∧
        p2 + len ≤ size_sub n b.width from ⟨by omega, hc⟩)]
      cases hcmp : chunk_cmp b text text (p1 + len) (p2 + len) with
      | none => rfl
      | some r =>
        cases r with
        | some k => rfl
        | none =>
          have hbd := chunk_cmp_some_bounds hb hcmp
          simp only
          rw [size_add_eq (show len + b.width < SIZE_MOD by omega)]
          rw [ih (len + b.width) (by omega)]
    · rw [if_neg hc, if_neg (fun h => hc h.2), Nat.min_self]
      exact single_tail_reads_eq_dual text n p1 p2 hp hn _ len hl

/-- Without `size_t` overflow the accesses of `lcp_cmp_single` are those of
`lcp_cmp_dual` on the same text at the smaller and the larger position. -/
theorem lcp_cmp_single_reads_eq_dual (b : Backend) (text : List Byte) (n p1 p2 c : Nat)
    (hn : n < SIZE_MOD) (hlen : text.length < SIZE_MOD)
    (hc : max p1 p2 + c < SIZE_MOD) :
    lcp_cmp_single_reads b text n p1 p2 c
      = lcp_cmp_dual_reads b text n text n (min p1 p2) (max p1 p2) c := by
  unfold lcp_cmp_single_reads lcp_cmp_dual_reads
  have e1 : (if p1 > p2 then p2 else p1) = min p1 p2 := by
    split <;> omega
  have e2 : (if p1 > p2 then p1 else p2) = max p1 p2 := by
    split <;> omega
  have hp : min p1 p2 ≤ max p1 p2 := by omega
  simp only [e1, e2, Nat.min_self]
  cases b with
  | scalar => exact single_tail_reads_eq_dual text n _ _ hp hn _ c hc
  | native => exact single_bulk_reads_eq_dual _ (by decide) text n _ _ hp hn hlen _ c hc
  | sse16 => exact single_bulk_reads_eq_dual _ (by decide) text n _ _ hp hn hlen _ c hc
  | avx32 => exact single_bulk_reads_eq_dual _ (by decide) text n _ _ hp hn hlen _ c hc

/-- Every byte read of the tail loop of `lcp_cmp_dual` is below the length its
test compared it with; the tail loop reads no chunk. -/
theorem dual_tail_reads_bound (text1 : List Byte) (n1 : Nat) (text2 : List Byte)
    (n2 p1 p2 : Nat) :
    ∀ (fuel len : Nat) (a : Access),
      a ∈ dual_tail_reads text1 n1 text2 n2 p1 p2 fuel len →
      ∃ i j, a = .byte i j ∧ i < n1 ∧ j < n2 := by
  intro fuel
  induction fuel with
  | zero =>
    intro len a h
    simp [dual_tail_reads] at h
  | succ f ih =>
    intro len a h
    unfold dual_tail_reads at h
    split at h
    · rename_i hc
      rcases List.mem_cons.mp h with h | h
      · exact ⟨_, _, h, hc.1, hc.2⟩
      · split at h
        · split at h
          · exact ih _ a h
          · simp at h
        · simp at h
    · simp at h

/-- On buffers of at least one chunk every chunk read of the bulk loop of
`lcp_cmp_dual` lies inside both buffers, and every byte read of the tail loop it
falls through to is inside its buffer. -/
theorem dual_bulk_reads_bound (b : Backend) (text1 text2 : List Byte) (p1 p2 : Nat)
    (hn1 : text1.length < SIZE_MOD) (hn2 : text2.length < SIZE_MOD)
    (hw1 : b.width ≤ text1.length) (hw2 : b.width ≤ text2.length) :
    ∀ (fuel len : Nat) (a : Access),
      a ∈ dual_bulk_reads b text1 text1.length text2 text2.length p1 p2 fuel len →
      (∃ o1 o2, a = .chunk o1 o2 ∧ o1 + b.width ≤ text1.length ∧
        o2 + b.width ≤ text2.length) ∨
      (∃ i j, a = .byte i j ∧ i < text1.length ∧ j < text2.length) := by
  intro fuel
  induction fuel with
  | zero =>
    intro len a h
    simp [dual_bulk_reads] at h
  | succ f ih =>
    intro len a h
    unfold dual_bulk_reads at h
    rw [size_sub_eq hw1 hn1, size_sub_eq hw2 hn2] at h
    split at h
    · rename_i hc
      rcases List.mem_cons.mp h with h | h
      · exact Or.inl ⟨_, _, h, by omega, by omega⟩
      · split at h
        · exact ih _ a h
        · simp at h
    · exact Or.inr (dual_tail_reads_bound text1 text1.length text2 text2.length p1 p2 _ len a h)

theorem lcp_cmp_dual_reads_chunk_bound (b : Backend) (text1 text2 : List Byte)
    (p1 p2 c o1 o2 : Nat) (hn1 : text1.length < SIZE_MOD) (hn2 : text2.length < SIZE_MOD)
    (hw1 : b.width ≤ text1.length) (hw2 : b.width ≤ text2.length)
    (h : Access.chunk o1 o2
      ∈ lcp_cmp_dual_reads b text1 text1.length text2 text2.length p1 p2 c) :
    o1 + b.width ≤ text1.length ∧ o2 + b.width ≤ text2.length := by
  have key : ∀ fuel, Access.chunk o1 o2
      ∈ dual_bulk_reads b text1 text1.length text2 text2.length p1 p2 fuel c →
      o1 + b.width ≤ text1.length ∧ o2 + b.width ≤ text2.length := by
    intro fuel hm
    rcases dual_bulk_reads_bound b text1 text2 p1 p2 hn1 hn2 hw1 hw2 fuel c _ hm with
      ⟨o1', o2', he, h1, h2⟩ | ⟨i, j, he, _, _⟩
    · cases he
      exact ⟨h1, h2⟩
    · cases he
  unfold lcp_cmp_dual_reads at h
  cases b with
  | scalar =>
    obtain ⟨i', j', he, _, _⟩ :=
      dual_tail_reads_bound text1 text1.length text2 text2.length p1 p2 _ c _ h
    cases he
  | native => exact key _ h
  | sse16 => exact key _ h
  | avx32 => exact key _ h

/-! ## The first differing byte -/

theorem common_prefix_len_mismatch (xs : List Byte) : ∀ (ys : List Byte),
    common_prefix_len xs ys < xs.length → common_prefix_len xs ys < ys.length →
    xs[common_prefix_len xs ys]? ≠ ys[common_prefix_len xs ys]? := by
  induction xs with
  | nil => intro ys h _; simp at h
  | cons a as ih =>
    intro ys h1 h2
    cases ys with
    | nil => simp at h2
    | cons c cs =>
      by_cases hac : a = c
      · simp only [common_prefix_len, hac, if_true, List.length_cons] at h1 h2 ⊢
        rw [Nat.add_comm 1, List.getElem?_cons_succ, List.getElem?_cons_succ]
        exact ih cs (by omega) (by omega)
      · simp [common_prefix_len, hac]

/-- For two different chunks of one length, the length of their common prefix is
the index of their first differing byte. -/
theorem isFirstDiff_common_prefix_len (v1 v2 : List Byte) (hl : v1.length = v2.length)
    (hne : v1 ≠ v2) : IsFirstDiff v1 v2 (common_prefix_len v1 v2) := by
  have hlt := common_prefix_len_lt_of_ne v1 v2 hl hne
  exact ⟨hlt, common_prefix_len_mismatch v1 v2 hlt (by omega),
    fun j hj => common_prefix_len_agree v1 v2 j hj⟩

/-- Vector backends: bit `i` of the comparison mask is set exactly when byte `i`
of the two chunks is equal. -/
theorem movemask_testBit (v1 : List Byte) : ∀ (v2 : List Byte) (i : Nat),
    v1.length = v2.length → i < v1.length →
    (mm_movemask_epi8 (mm_cmpeq_epi8 v1 v2)).testBit i = decide (v1[i]? = v2[i]?) := by
  induction v1 with
  | nil => intro v2 i _ hi; simp at hi
  | cons a as ih =>
    intro v2 i hl hi
    cases v2 with
    | nil => simp at hl
    | cons c cs =>
      simp only [List.length_cons, Nat.add_right_cancel_iff] at hl
      have h255 : ((0xFF : Byte).val) / 128 = 1 := by decide
      have h0 : ((0x00 : Byte).val) / 128 = 0 := by decide
      simp only [mm_cmpeq_epi8, mm_movemask_epi8]
      cases i with
      | zero =>
        rw [Nat.testBit_zero]
        by_cases hac : a = c
        · simp only [hac, if_true, h255, List.getElem?_cons_zero, decide_True]
          rw [decide_eq_true_iff]
          omega
        · simp only [hac, if_false, h0, List.getElem?_cons_zero, Option.some.injEq,
            decide_False]
          rw [decide_eq_false_iff_not]
          omega
      | succ j =>
        rw [Nat.testBit_succ, List.getElem?_cons_succ, List.getElem?_cons_succ,
          ← ih cs j hl (by simpa using hi)]
        congr 1
        by_cases hac : a = c
        · simp only [hac, if_true, h255]
          omega
        · simp only [hac, if_false, h0]
          omega

/-! ## The guard of the bulk loop on a short buffer -/

/-- On a buffer shorter than one chunk, `text_len - W` wraps around and the guard
`pos + len <= text_len - W` holds for every in-range `pos + len`. -/
theorem bulk_guard_short_buffer (b : Backend) (n p len : Nat)
    (hs : n < b.width) (h : p + len ≤ n) :
    size_add p len ≤ size_sub n b.width := by
  have hw := width_lt_size_mod b
  rw [size_add_eq (by omega), size_sub_wrap hs hw]
  omega

/-- On a buffer shorter than one chunk, a chunk build of `lcp_cmp_single` called
with in-range positions attempts exactly one access: a chunk read at the two
positions plus `c`, which leaves the buffer. -/
theorem lcp_cmp_single_reads_short_buffer (b : Backend) (hb : b ≠ .scalar) (text : List Byte)
    (p1 p2 c : Nat) (hn : text.length < SIZE_MOD) (hs : text.length < b.width)
    (hc : max p1 p2 + c ≤ text.length) :
    lcp_cmp_single_reads b text text.length p1 p2 c
      = [.chunk (min p1 p2 + c) (max p1 p2 + c)] := by
  have hg := bulk_guard_short_buffer b text.length (max p1 p2) c hs hc
  have e1 : (if p1 > p2 then p2 else p1) = min p1 p2 := by
    split <;> omega
  have e2 : (if p1 > p2 then p1 else p2) = max p1 p2 := by
    split <;> omega
  have key : single_bulk_reads b text text.length (min p1 p2) (max p1 p2) (text.length + 1) c
      = [.chunk (min p1 p2 + c) (max p1 p2 + c)] := by
    unfold single_bulk_reads
    rw [if_pos hg, size_add_eq (show min p1 p2 + c < SIZE_MOD by omega),
      size_add_eq (show max p1 p2 + c < SIZE_MOD by omega),
      chunk_cmp_none_of_lt hb (Or.inl (by omega))]
  unfold lcp_cmp_single_reads
  simp only [e1, e2]
  cases b with
  | scalar => exact absurd rfl hb
  | native => exact key
  | sse16 => exact key
  | avx32 => exact key

/-! ## Independence of the supplied lower bound -/

/-- On buffers of at least one chunk, and in the build without a backend, the
result of `lcp_cmp_dual` is the same for any two valid lower bounds and is returned
again when passed back as `common_len`. -/
theorem lcp_cmp_dual_bound_irrelevant (b : Backend) (text1 text2 : List Byte)
    (p1 p2 c1 c2 : Nat) (hn1 : text1.length < SIZE_MOD) (hn2 : text2.length < SIZE_MOD)
    (hw1 : b.width ≤ text1.length) (hw2 : b.width ≤ text2.length)
    (hv1 : ValidBound text1 text2 p1 p2 c1) (hv2 : ValidBound text1 text2 p1 p2 c2) :
    lcp_cmp_dual b text1 text1.length text2 text2.length p1 p2 c1
        = lcp_cmp_dual b text1 text1.length text2 text2.length p1 p2 c2 ∧
      ∀ k, lcp_cmp_dual b text1 text1.length text2 text2.length p1 p2 c1 = .ret k →
        lcp_cmp_dual b text1 text1.length text2 text2.length p1 p2 k = .ret k := by
  constructor
  · rw [lcp_cmp_dual_eq b text1 text2 p1 p2 c1 hn1 hn2 hw1 hw2 hv1,
      lcp_cmp_dual_eq b text1 text2 p1 p2 c2 hn1 hn2 hw1 hw2 hv2]
  · intro k hk
    exact lcp_cmp_dual_fixed b text1 text2 p1 p2 c1 k hn1 hn2 hw1 hw2 hv1.1 hv1.2.1 hk

/-- In every build and on every buffer, what `lcp_cmp_single` does is the same for
any two valid lower bounds (on a buffer shorter than one chunk both calls of a
chunk build read outside the buffer), and a returned length is returned again
when passed back as `common_len`. -/
theorem lcp_cmp_single_bound_irrelevant (b : Backend) (text : List Byte)
    (p1 p2 c1 c2 : Nat) (hn : text.length < SIZE_MOD)
    (hv1 : ValidBound text text p1 p2 c1) (hv2 : ValidBound text text p1 p2 c2) :
    lcp_cmp_single b text text.length p1 p2 c1
        = lcp_cmp_single b text text.length p1 p2 c2 ∧
      ∀ k, lcp_cmp_single b text text.length p1 p2 c1 = .ret k →
        lcp_cmp_single b text text.length p1 p2 k = .ret k := by
  have h11 := hv1.1
  have h12 := hv1.2.1
  have h21 := hv2.1
  have h22 := hv2.2.1
  rcases Nat.lt_or_ge text.length b.width with hs | hw
  · have hb : b ≠ .scalar := by
      intro h
      rw [h] at hs
      simp [Backend.width] at hs
    have e1 := lcp_cmp_single_short_buffer b hb text p1 p2 c1 hn hs (by omega)
    have e2 := lcp_cmp_single_short_buffer b hb text p1 p2 c2 hn hs (by omega)
    refine ⟨by rw [e1, e2], ?_⟩
    intro k hk
    rw [e1] at hk
    cases hk
  · have e1 := lcp_cmp_single_eq b text p1 p2 c1 hn hw hv1
    have e2 := lcp_cmp_single_eq b text p1 p2 c2 hn hw hv2
    refine ⟨by rw [e1, e2], ?_⟩
    intro k hk
    rw [lcp_cmp_single_eq_dual b text text.length p1 p2 c1 hn hn (by omega) (by omega)] at hk
    have hk2 := lcp_cmp_dual_fixed b text text p1 p2 c1 k hn hn hw hw h11 h12 hk
    rw [lcp_cmp_dual_eq_from b text text p1 p2 c1 hn hn hw hw h11 h12] at hk
    have hk' := Outcome.ret.inj hk
    have hg := (naive_lcp_isGreatest text text (p1 + c1) (p2 + c1) h11 h12).1
    have hg1 : p1 + c1 + naive_lcp text text (p1 + c1) (p2 + c1) ≤ text.length := hg.1
    have hg2 : p2 + c1 + naive_lcp text text (p1 + c1) (p2 + c1) ≤ text.length := hg.2.1
    rw [lcp_cmp_single_eq_dual b text text.length p1 p2 k hn hn (by omega) (by omega)]
    exact hk2

/-! ## A call without a defined result has an access outside a buffer -/

theorem chunk_cmp_none_bounds {b : Backend} {t1 t2 : List Byte} {o1 o2 : Nat}
    (h : chunk_cmp b t1 t2 o1 o2 = none) :
    ¬ (o1 + b.width ≤ t1.length ∧ o2 + b.width ≤ t2.length) := by
  intro hb
  have hne : b ≠ .scalar := by
    intro hs
    rw [hs] at h
    simp [chunk_cmp] at h
  rw [chunk_cmp_eq hne (load_bytes_of_le hb.1) (load_bytes_of_le hb.2)] at h
  simp at h

theorem getElem?_pair_none {t1 t2 : List Byte} {i j : Nat}
    (h : ∀ a c, ¬ (t1[i]? = some a ∧ t2[j]? = some c)) :
    ¬ (i < t1.length ∧ j < t2.length) := by
  intro hb
  exact h _ _ ⟨List.getElem?_eq_getElem hb.1, List.getElem?_eq_getElem hb.2⟩

theorem dual_tail_undef (w : Nat) (text1 : List Byte) (n1 : Nat) (text2 : List Byte)
    (n2 p1 p2 : Nat) :
    ∀ (fuel len : Nat), dual_tail text1 n1 text2 n2 p1 p2 fuel len = .undef →
      ∃ a, a ∈ dual_tail_reads text1 n1 text2 n2 p1 p2 fuel len ∧
        ¬ a.InBounds w text1 text2 := by
  intro fuel
  induction fuel with
  | zero =>
    intro len h
    simp [dual_tail] at h
  | succ f ih =>
    intro len h
    unfold dual_tail at h
    unfold dual_tail_reads
    by_cases hc : size_add p1 len < n1 ∧ size_add p2 len < n2
    · rw [if_pos hc] at h ⊢
      cases h1 : text1[size_add p1 len]? with
      | none =>
        refine ⟨_, List.mem_cons_self _ _, ?_⟩
        exact getElem?_pair_none (fun a c hac => by simp [h1] at hac)
      | some a =>
        cases h2 : text2[size_add p2 len]? with
        | none =>
          refine ⟨_, List.mem_cons_self _ _, ?_⟩
          exact getElem?_pair_none (fun a c hac => by simp [h2] at hac)
        | some c =>
          simp only [h1, h2] at h ⊢
          by_cases hac : a = c
          · rw [if_pos hac] at h ⊢
            obtain ⟨x, hx, hb⟩ := ih _ h
            exact ⟨x, List.mem_cons_of_mem _ hx, hb⟩
          · rw [if_neg hac] at h
            cases h
    · rw [if_neg hc] at h
      cases h

theorem dual_bulk_undef (b : Backend) (text1 : List Byte) (n1 : Nat) (text2 : List Byte)
    (n2 p1 p2 : Nat) :
    ∀ (fuel len : Nat), dual_bulk b text1 n1 text2 n2 p1 p2 fuel len = .undef →
      ∃ a, a ∈ dual_bulk_reads b text1 n1 text2 n2 p1 p2 fuel len ∧
        ¬ a.InBounds b.width text1 text2 := by
  intro fuel
  induction fuel with
  | zero =>
    intro len h
    simp [dual_bulk] at h
  | succ f ih =>
    intro len h
    unfold dual_bulk at h
    unfold dual_bulk_reads
    by_cases hc : size_add p1 len ≤ size_sub n1 b.width ∧ size_add p2 len ≤ size_sub n2 b.width
    · rw [if_pos hc] at h ⊢
      cases hcmp : chunk_cmp b text1 text2 (size_add p1 len) (size_add p2 len) with
      | none => exact ⟨_, List.mem_cons_self _ _, chunk_cmp_none_bounds hcmp⟩
      | some r =>
        cases r with
        | some k =>
          simp only [hcmp] at h
          cases h
        | none =>
          simp only [hcmp] at h ⊢
          obtain ⟨x, hx, hb⟩ := ih _ h
          exact ⟨x, List.mem_cons_of_mem _ hx, hb⟩
    · rw [if_neg hc] at h ⊢
      exact dual_tail_undef b.width text1 n1 text2 n2 p1 p2 _ len h

/-- If a call of `lcp_cmp_dual` has no defined result, one of its accesses lies
outside a buffer. -/
theorem lcp_cmp_dual_undef (b : Backend) (text1 : List Byte) (n1 : Nat) (text2 : List Byte)
    (n2 p1 p2 c : Nat) (h : lcp_cmp_dual b text1 n1 text2 n2 p1 p2 c = .undef) :
    ∃ a, a ∈ lcp_cmp_dual_reads b text1 n1 text2 n2 p1 p2 c ∧
      ¬ a.InBounds b.width text1 text2 := by
  unfold lcp_cmp_dual at h
  unfold lcp_cmp_dual_reads
  cases b with
  | scalar => exact dual_tail_undef _ text1 n1 text2 n2 p1 p2 _ c h
  | native => exact dual_bulk_undef _ text1 n1 text2 n2 p1 p2 _ c h
  | sse16 => exact dual_bulk_undef _ text1 n1 text2 n2 p1 p2 _ c h
  | avx32 => exact dual_bulk_undef _ text1 n1 text2 n2 p1 p2 _ c h

theorem single_tail_undef (w : Nat) (text : List Byte) (n p1 p2 : Nat) :
    ∀ (fuel len : Nat), single_tail text n p1 p2 fuel len = .undef →
      ∃ a, a ∈ single_tail_reads text n p1 p2 fuel len ∧ ¬ a.InBounds w text text := by
  intro fuel
  induction fuel with
  | zero =>
    intro len h
    simp [single_tail] at h
  | succ f ih =>
    intro len h
    unfold single_tail at h
    unfold single_tail_reads
    by_cases hc : size_add p2 len < n
    · rw [if_pos hc] at h ⊢
      cases h1 : text[size_add p1 len]? with
      | none =>
        refine ⟨_, List.mem_cons_self _ _, ?_⟩
        exact getElem?_pair_none (fun a c hac => by simp [h1] at hac)
      | some a =>
        cases h2 : text[size_add p2 len]? with
        | none =>
          refine ⟨_, List.mem_cons_self _ _, ?_⟩
          exact getElem?_pair_none (fun a c hac => by simp [h2] at hac)
        | some c =>
          simp only [h1, h2] at h ⊢
          by_cases hac : a = c
          · rw [if_pos hac] at h ⊢
            obtain ⟨x, hx, hb⟩ := ih _ h
            exact ⟨x, List.mem_cons_of_mem _ hx, hb⟩
          · rw [if_neg hac] at h
            cases h
    · rw [if_neg hc] at h
      cases h

theorem single_bulk_undef (b : Backend) (text : List Byte) (n p1 p2 : Nat) :
    ∀ (fuel len : Nat), single_bulk b text n p1 p2 fuel len = .undef →
      ∃ a, a ∈ single_bulk_reads b text n p1 p2 fuel len ∧
        ¬ a.InBounds b.width text text := by
  intro fuel
  induction fuel with
  | zero =>
    intro len h
    simp [single_bulk] at h
  | succ f ih =>
    intro len h
    unfold single_bulk at h
    unfold single_bulk_reads
    by_cases hc : size_add p2 len ≤ size_sub n b.width
    · rw [if_pos hc] at h ⊢
      cases hcmp : chunk_cmp b text text (size_add p1 len) (size_add p2 len) with
      | none => exact ⟨_, List.mem_cons_self _ _, chunk_cmp_none_bounds hcmp⟩
      | some r =>
        cases r with
        | some k =>
          simp only [hcmp] at h
          cases h
        | none =>
          simp only [hcmp] at h ⊢
          obtain ⟨x, hx, hb⟩ := ih _ h
          exact ⟨x, List.mem_cons_of_mem _ hx, hb⟩
    · rw [if_neg hc] at h ⊢
      exact single_tail_undef b.width text n p1 p2 _ len h

/-- If a call of `lcp_cmp_single` has no defined result, one of its accesses lies
outside the buffer. -/
theorem lcp_cmp_single_undef (b : Backend) (text : List Byte) (n p1 p2 c : Nat)
    (h : lcp_cmp_single b text n p1 p2 c = .undef) :
    ∃ a, a ∈ lcp_cmp_single_reads b text n p1 p2 c ∧ ¬ a.InBounds b.width text text := by
  unfold lcp_cmp_single at h
  unfold lcp_cmp_single_reads
  cases b with
  | scalar => exact single_tail_undef _ text n _ _ _ c h
  | native => exact single_bulk_undef _ text n _ _ _ c h
  | sse16 => exact single_bulk_undef _ text n _ _ _ c h
  | avx32 => exact single_bulk_undef _ text n _ _ _ c h

/-! ## The claims -/

/-- C1. In the build without a backend, for every buffer, every two positions and
every valid lower bound `c` (the larger position plus `c` stays inside the buffer and
the first `c` bytes from the two positions agree), `lcp_cmp_single` returns the
result of the naive byte-by-byte comparison from offset 0, which is the greatest `k`
with `max pos1 pos2 + k ≤ n` and `text[pos1 + i] = text[pos2 + i]` for all `i < k`. -/
theorem single_scalar_matches_naive (text : List Byte) (pos1 pos2 c : Nat)
    (hn : text.length < SIZE_MOD) (hc : max pos1 pos2 + c ≤ text.length)
    (heq : ∀ i, i < c → text[pos1 + i]? = text[pos2 + i]?) :
    lcp_cmp_single .scalar text text.length pos1 pos2 c
        = .ret (naive_lcp text text pos1 pos2) ∧
      IsGreatest {k | max pos1 pos2 + k ≤ text.length ∧
        ∀ i, i < k → text[pos1 + i]? = text[pos2 + i]?} (naive_lcp text text pos1 pos2) := by
  have hv : ValidBound text text pos1 pos2 c := ⟨by omega, by omega, heq⟩
  have hg := naive_lcp_isGreatest text text pos1 pos2 (by omega) (by omega)
  refine ⟨?_, ⟨?_, hg.1.2.2⟩, ?_⟩
  · rw [lcp_cmp_single_eq_dual .scalar text text.length pos1 pos2 c hn hn (by omega) (by omega)]
    exact lcp_cmp_dual_scalar_eq text text pos1 pos2 c hn hn hv
  · have h1 := hg.1.1
    have h2 := hg.1.2.1
    omega
  · rintro k ⟨hk, hag⟩
    exact hg.2 ⟨by omega, by omega, hag⟩

/-- C1 at `text = "abcabd"`, `pos1 = 0`, `pos2 = 3`, `common_len = 0`: the result is 2. -/
theorem single_scalar_matches_naive_witness :
    lcp_cmp_single .scalar abcabd 6 0 3 0 = .ret 2 :=
  (single_scalar_matches_naive abcabd 0 3 0 (by decide) (by decide) (by decide)).1

/-- C2. In the build without a backend, for every two buffers, positions and valid
lower bound `c`, `lcp_cmp_dual` returns the result of the naive comparison, which is
the greatest `k` with `pos1 + k ≤ n1`, `pos2 + k ≤ n2` and
`text1[pos1 + i] = text2[pos2 + i]` for all `i < k`. -/
theorem dual_scalar_matches_naive (text1 text2 : List Byte) (pos1 pos2 c : Nat)
    (hn1 : text1.length < SIZE_MOD) (hn2 : text2.length < SIZE_MOD)
    (h1 : pos1 + c ≤ text1.length) (h2 : pos2 + c ≤ text2.length)
    (heq : ∀ i, i < c → text1[pos1 + i]? = text2[pos2 + i]?) :
    lcp_cmp_dual .scalar text1 text1.length text2 text2.length pos1 pos2 c
        = .ret (naive_lcp text1 text2 pos1 pos2) ∧
      IsGreatest {k | pos1 + k ≤ text1.length ∧ pos2 + k ≤ text2.length ∧
        ∀ i, i < k → text1[pos1 + i]? = text2[pos2 + i]?}
        (naive_lcp text1 text2 pos1 pos2) :=
  ⟨lcp_cmp_dual_scalar_eq text1 text2 pos1 pos2 c hn1 hn2 ⟨h1, h2, heq⟩,
    naive_lcp_isGreatest text1 text2 pos1 pos2 (by omega) (by omega)⟩

/-- C2 at `text1 = "hello"`, `text2 = "help"`, `pos1 = pos2 = 0`, `common_len = 0`:
the result is 3. -/
theorem dual_scalar_matches_naive_witness :
    lcp_cmp_dual .scalar hello 5 help 4 0 0 0 = .ret 3 :=
  (dual_scalar_matches_naive hello help 0 0 0 (by decide) (by decide) (by decide) (by decide)
    (by decide)).1

/-- C3, evaluated on the 6-byte buffer `"abcabd"` with `pos1 = 0`, `pos2 = 3`,
`common_len = 0`: the build without a backend returns 2, while in each chunk build
`text_len - W` wraps around, the bulk loop is entered and its first chunk read leaves
the buffer; the same happens in `lcp_cmp_dual` on `"hello"` and `"help"`. When the 6
bytes are the head of a larger object (`mem24`), the native-word build returns 11,
past the end of the 6-byte buffer, where the build without a backend returns 5. -/
theorem chunk_builds_leave_short_buffer :
    lcp_cmp_single .scalar abcabd 6 0 3 0 = .ret 2 ∧
      lcp_cmp_single .native abcabd 6 0 3 0 = .undef ∧
      lcp_cmp_single .sse16 abcabd 6 0 3 0 = .undef ∧
      lcp_cmp_single .avx32 abcabd 6 0 3 0 = .undef ∧
      lcp_cmp_dual .scalar hello 5 help 4 0 0 0 = .ret 3 ∧
      lcp_cmp_dual .native hello 5 help 4 0 0 0 = .undef ∧
      lcp_cmp_single .scalar mem24 6 0 1 0 = .ret 5 ∧
      lcp_cmp_single .native mem24 6 0 1 0 = .ret 11 := by
  decide

/-- C4. For every build, buffer, length, positions `p`, `q` and `c`, exchanging the
two positions does not change what `lcp_cmp_single` does, and the call depends on the
positions only through `min p q` and `max p q`. -/
theorem single_positions_exchange (b : Backend) (text : List Byte) (n p q c : Nat) :
    lcp_cmp_single b text n p q c = lcp_cmp_single b text n q p c ∧
      lcp_cmp_single b text n p q c = lcp_cmp_single b text n (min p q) (max p q) c := by
  refine ⟨?_, lcp_cmp_single_sorted b text n p q c⟩
  rw [lcp_cmp_single_sorted b text n p q c, lcp_cmp_single_sorted b text n q p c,
    Nat.min_comm, Nat.max_comm]

/-- What holds of the lower bound when the buffer given is the whole object. On
every input on which `pos + common_len` does not overflow `size_t`, in every build:
a length returned by `lcp_cmp_single` or `lcp_cmp_dual` is at least `common_len`; if
the larger position plus `common_len` (for `lcp_cmp_dual`: either position plus
`common_len`) reaches or passes the buffer end, a call that returns a length returns
`common_len`, and it does return when the buffers hold at least one chunk. The build
without a backend always returns, and no call runs forever (it returns or leaves a
buffer). On buffers shorter than one chunk the chunk builds leave the buffer
instead: see `end_reached_on_short_buffer`. -/
theorem lower_bound_respected (b : Backend) (text text1 text2 : List Byte)
    (pos1 pos2 c : Nat) (hn : text.length < SIZE_MOD) (hn1 : text1.length < SIZE_MOD)
    (hn2 : text2.length < SIZE_MOD) (h1 : pos1 + c < SIZE_MOD) (h2 : pos2 + c < SIZE_MOD) :
    ((∀ k, lcp_cmp_single b text text.length pos1 pos2 c = .ret k → c ≤ k) ∧
      (∀ k, lcp_cmp_dual b text1 text1.length text2 text2.length pos1 pos2 c = .ret k →
        c ≤ k)) ∧
    ((text.length ≤ max pos1 pos2 + c →
        ∀ k, lcp_cmp_single b text text.length pos1 pos2 c = .ret k → k = c) ∧
      (text1.length ≤ pos1 + c ∨ text2.length ≤ pos2 + c →
        ∀ k, lcp_cmp_dual b text1 text1.length text2 text2.length pos1 pos2 c = .ret k →
          k = c)) ∧
    ((∃ k, c ≤ k ∧ lcp_cmp_single .scalar text text.length pos1 pos2 c = .ret k) ∧
      (∃ k, c ≤ k ∧
        lcp_cmp_dual .scalar text1 text1.length text2 text2.length pos1 pos2 c = .ret k)) ∧
    ((b.width ≤ text.length → text.length ≤ max pos1 pos2 + c →
        lcp_cmp_single b text text.length pos1 pos2 c = .ret c) ∧
      (b.width ≤ text1.length → b.width ≤ text2.length →
        text1.length ≤ pos1 + c ∨ text2.length ≤ pos2 + c →
        lcp_cmp_dual b text1 text1.length text2 text2.length pos1 pos2 c = .ret c)) ∧
    (((∃ k, c ≤ k ∧ lcp_cmp_single b text text.length pos1 pos2 c = .ret k) ∨
        lcp_cmp_single b text text.length pos1 pos2 c = .undef) ∧
      ((∃ k, c ≤ k ∧
          lcp_cmp_dual b text1 text1.length text2 text2.length pos1 pos2 c = .ret k) ∨
        lcp_cmp_dual b text1 text1.length text2 text2.length pos1 pos2 c = .undef)) := by
  refine ⟨⟨?_, ?_⟩, ⟨?_, ?_⟩, ⟨?_, ?_⟩, ⟨?_, ?_⟩, ⟨?_, ?_⟩⟩
  · intro k hk
    exact lcp_cmp_single_ge b text pos1 pos2 c k hn h1 h2 hk
  · intro k hk
    exact lcp_cmp_dual_ge b text1 text1.length text2 text2.length pos1 pos2 c k hn1 hn1 h1 hk
  · intro hend k hk
    rcases (lcp_cmp_single_at_end b text pos1 pos2 c hn h1 h2 hend).1 with h | h
    · rw [h] at hk
      exact (Outcome.ret.inj hk).symm
    · rw [h] at hk
      cases hk
  · intro hend k hk
    rcases (lcp_cmp_dual_at_end b text1 text2 pos1 pos2 c hn1 hn2 h1 h2 hend).1 with h | h
    · rw [h] at hk
      exact (Outcome.ret.inj hk).symm
    · rw [h] at hk
      cases hk
  · exact lcp_cmp_single_scalar_returns text pos1 pos2 c hn h1 h2
  · exact lcp_cmp_dual_scalar_returns text1 text2 pos1 pos2 c hn1 hn2 h1 h2
  · intro hw hend
    exact (lcp_cmp_single_at_end b text pos1 pos2 c hn h1 h2 hend).2 hw
  · intro hw1 hw2 hend
    exact (lcp_cmp_dual_at_end b text1 text2 pos1 pos2 c hn1 hn2 h1 h2 hend).2 hw1 hw2
  · exact lcp_cmp_single_returns_or_undef b text pos1 pos2 c hn h1 h2
  · exact lcp_cmp_dual_returns_or_undef b text1 text2 pos1 pos2 c hn1 hn2 h1 h2

/-- The lower bound at `text = "aaaaaaaa"`, `pos1 = 0`, `pos2 = 1`, `common_len = 1`
in the native-word build: the call returns 7, which is at least 1. -/
theorem lower_bound_respected_witness :
    lcp_cmp_single .native aaaaaaaa 8 0 1 1 = .ret 7 ∧ 1 ≤ 7 :=
  ⟨by decide,
    (lower_bound_respected .native aaaaaaaa hello help 0 1 1 (by decide) (by decide)
      (by decide) (by decide) (by decide)).1.1 7 (by decide)⟩

/-- Boundary termination where the guard of the bulk loop does not wrap around:
in the build without a backend (chunk width 0) on every buffer, and in each chunk
build on buffers that hold at least one chunk. For a valid lower bound, if no
mismatch occurs before the buffer end is reached (`text[pos1 + i] = text[pos2 + i]`
for every `i < n - max pos1 pos2`), `lcp_cmp_single` returns exactly
`n - max pos1 pos2`; and `lcp_cmp_dual` returns exactly
`d = min (n1 - pos1) (n2 - pos2)` if `text1[pos1 + i] = text2[pos2 + i]` for every
`i < d`. On buffers shorter than one chunk the chunk builds do otherwise: see
`boundary_passed_on_short_buffer`. -/
theorem boundary_termination (b : Backend) (text text1 text2 : List Byte)
    (pos1 pos2 c : Nat) (hn : text.length < SIZE_MOD) (hn1 : text1.length < SIZE_MOD)
    (hn2 : text2.length < SIZE_MOD) :
    (b.width ≤ text.length → max pos1 pos2 + c ≤ text.length →
      (∀ i, i < text.length - max pos1 pos2 → text[pos1 + i]? = text[pos2 + i]?) →
      lcp_cmp_single b text text.length pos1 pos2 c
        = .ret (text.length - max pos1 pos2)) ∧
    (b.width ≤ text1.length → b.width ≤ text2.length →
      pos1 + c ≤ text1.length → pos2 + c ≤ text2.length →
      (∀ i, i < min (text1.length - pos1) (text2.length - pos2) →
        text1[pos1 + i]? = text2[pos2 + i]?) →
      lcp_cmp_dual b text1 text1.length text2 text2.length pos1 pos2 c
        = .ret (min (text1.length - pos1) (text2.length - pos2))) :=
  ⟨fun hw hc hag => lcp_cmp_single_of_agree b text pos1 pos2 c hn hw hc hag,
    fun hw1 hw2 h1 h2 hag =>
      lcp_cmp_dual_of_agree b text1 text2 pos1 pos2 c hn1 hn2 hw1 hw2 h1 h2 hag⟩

/-- Boundary termination at `text = "aaaaaaaa"` (8 bytes), `pos1 = 0`, `pos2 = 1`,
`common_len = 0`: the result is 7, in the build without a backend and in the
native-word build; and `lcp_cmp_dual` on `"aaaaaaaa"` at 0 against sixteen `'a'` at 3
returns 8. -/
theorem boundary_termination_witness :
    lcp_cmp_single .scalar aaaaaaaa 8 0 1 0 = .ret 7 ∧
      lcp_cmp_single .native aaaaaaaa 8 0 1 0 = .ret 7 ∧
      lcp_cmp_dual .native aaaaaaaa 8 (aaaaaaaa ++ aaaaaaaa) 16 0 3 0 = .ret 8 :=
  ⟨(boundary_termination .scalar aaaaaaaa hello help 0 1 0 (by decide) (by decide)
      (by decide)).1 (by decide) (by decide) (by decide),
    (boundary_termination .native aaaaaaaa hello help 0 1 0 (by decide) (by decide)
      (by decide)).1 (by decide) (by decide) (by decide),
    (boundary_termination .native hello aaaaaaaa (aaaaaaaa ++ aaaaaaaa) 0 3 0 (by decide)
      (by decide) (by decide)).2 (by decide) (by decide) (by decide) (by decide) (by decide)⟩

/-- In the build without a backend, and in a chunk build on a buffer of at least
one chunk, a call with `pos1` at the buffer end and `common_len = 0` returns 0. -/
theorem lcp_cmp_at_end_zero (b : Backend) (text text1 text2 : List Byte) (pos2 : Nat)
    (hn : text.length < SIZE_MOD) (hn1 : text1.length < SIZE_MOD)
    (hn2 : text2.length < SIZE_MOD) (hp : pos2 < SIZE_MOD) :
    (b.width ≤ text.length →
      lcp_cmp_single b text text.length text.length pos2 0 = .ret 0) ∧
    (b.width ≤ text1.length → b.width ≤ text2.length →
      lcp_cmp_dual b text1 text1.length text2 text2.length text1.length pos2 0 = .ret 0) :=
  ⟨fun hw => (lcp_cmp_single_at_end b text text.length pos2 0 hn (by omega) (by omega)
      (by omega)).2 hw,
    fun hw1 hw2 => (lcp_cmp_dual_at_end b text1 text2 text1.length pos2 0 hn1 hn2 (by omega)
      (by omega) (by omega)).2 hw1 hw2⟩

/-- C7, evaluated on the 4-byte buffer `"abcb"` with `pos1 = 4` (the buffer end),
`pos2 = 0`, `common_len = 0`: the build without a backend returns 0, while in each
chunk build `text_len - W` wraps around, the bulk loop is entered and its chunk reads
leave the buffer; `lcp_cmp_dual` does the same with `"abcb"` against a 16-byte buffer.
When the 4 bytes are the head of a larger object, the native-word build returns 13. -/
theorem position_at_end_of_short_buffer :
    lcp_cmp_single .scalar abcb 4 4 0 0 = .ret 0 ∧
      lcp_cmp_single .native abcb 4 4 0 0 = .undef ∧
      lcp_cmp_single .sse16 abcb 4 4 0 0 = .undef ∧
      lcp_cmp_single .avx32 abcb 4 4 0 0 = .undef ∧
      lcp_cmp_dual .scalar abcb 4 (aaaaaaaa ++ aaaaaaaa) 16 4 0 0 = .ret 0 ∧
      lcp_cmp_dual .native abcb 4 (aaaaaaaa ++ aaaaaaaa) 16 4 0 0 = .undef ∧
      lcp_cmp_single .native (aaaaaaaa ++ aaaaaaaa ++ abcabd) 4 4 0 0 = .ret 13 := by
  decide

/-- C8 as stated fails where `pos2 + common_len` overflows `size_t`: on `"aaaa"` with
`pos1 = 3`, `pos2 = 2^64 - 1`, `common_len = 1` the test `pos2 + len < text_len` of
`lcp_cmp_single` passes (the sum wraps to 0) and `text[4]` is read, while
`lcp_cmp_dual` tests `pos1 + len < text_len` as well and returns 1. When the 4 bytes
are the head of the 8-byte object `"aaaaaaaa"`, `lcp_cmp_single` returns 5. -/
theorem single_differs_from_dual_on_overflow :
    lcp_cmp_single .scalar aaaa 4 3 (2 ^ 64 - 1) 1 = .undef ∧
      lcp_cmp_dual .scalar aaaa 4 aaaa 4 3 (2 ^ 64 - 1) 1 = .ret 1 ∧
      lcp_cmp_single .scalar aaaa 4 3 (2 ^ 64 - 1) 1
        ≠ lcp_cmp_dual .scalar aaaa 4 aaaa 4 3 (2 ^ 64 - 1) 1 ∧
      lcp_cmp_single .scalar aaaaaaaa 4 3 (2 ^ 64 - 1) 1 = .ret 5 ∧
      lcp_cmp_dual .scalar aaaaaaaa 4 aaaaaaaa 4 3 (2 ^ 64 - 1) 1 = .ret 1 := by
  decide

/-- C8, amended. For every build, buffer, positions and `common_len` on which
`pos1 + common_len` and `pos2 + common_len` do not overflow `size_t`,
`lcp_cmp_single` on a text is `lcp_cmp_dual` on that text taken twice. -/
theorem single_is_dual_on_one_text (b : Backend) (text : List Byte) (pos1 pos2 c : Nat)
    (hn : text.length < SIZE_MOD) (h1 : pos1 + c < SIZE_MOD) (h2 : pos2 + c < SIZE_MOD) :
    lcp_cmp_single b text text.length pos1 pos2 c
      = lcp_cmp_dual b text text.length text text.length pos1 pos2 c :=
  lcp_cmp_single_eq_dual b text text.length pos1 pos2 c hn hn h1 h2

/-- C8 (amended) at `text = "abcabd"`, `pos1 = 3`, `pos2 = 0`, `common_len = 0` in
the build without a backend: both entry points return 2. -/
theorem single_is_dual_on_one_text_witness :
    lcp_cmp_single .scalar abcabd 6 3 0 0 = .ret 2 ∧
      lcp_cmp_dual .scalar abcabd 6 abcabd 6 3 0 0 = .ret 2 :=
  ⟨by decide,
    (single_is_dual_on_one_text .scalar abcabd 3 0 0 (by decide) (by decide) (by decide)) ▸
      (by decide)⟩

/-- C10. A `common_len` that is not a true lower bound goes undetected: on
`text = "abcb"`, `pos1 = 0`, `pos2 = 2`, `common_len = 1` the bytes at offset 0 differ
(`'a'` against `'c'`), the true longest common prefix is 0, and `lcp_cmp_single`
returns the ordinary length 2. The same happens in every build on a 40-byte buffer. -/
theorem wrong_common_len_goes_undetected :
    (abcb[0 + 0]? ≠ abcb[2 + 0]? ∧ naive_lcp abcb abcb 0 2 = 0 ∧
      lcp_cmp_single .scalar abcb 4 0 2 1 = .ret 2 ∧
      naive_lcp abcb abcb 0 2 < 2) ∧
    (abbb40[0 + 0]? ≠ abbb40[1 + 0]? ∧ naive_lcp abbb40 abbb40 0 1 = 0 ∧
      ∀ b : Backend, lcp_cmp_single b abbb40 40 0 1 1 = .ret 39) := by
  refine ⟨by decide, by decide, by decide, ?_⟩
  intro b
  cases b <;> decide

/-- C11. For each backend with chunk width `W` (8 for the native word, 16, 32),
every buffer of length `n ≥ W`, positions and valid lower bound, `lcp_cmp_single`
returns the naive byte-by-byte longest-common-prefix length; likewise `lcp_cmp_dual`
when both `n1 ≥ W` and `n2 ≥ W`. The naive length is the greatest `k` on which both
suffixes lie inside their buffers and agree. -/
theorem chunk_builds_match_naive (b : Backend) (text text1 text2 : List Byte)
    (pos1 pos2 c : Nat) (hn : text.length < SIZE_MOD) (hn1 : text1.length < SIZE_MOD)
    (hn2 : text2.length < SIZE_MOD) :
    (Backend.native.width = 8 ∧ Backend.sse16.width = 16 ∧ Backend.avx32.width = 32) ∧
    (b.width ≤ text.length → max pos1 pos2 + c ≤ text.length →
      (∀ i, i < c → text[pos1 + i]? = text[pos2 + i]?) →
      lcp_cmp_single b text text.length pos1 pos2 c
          = .ret (naive_lcp text text pos1 pos2) ∧
        IsGreatest {k | max pos1 pos2 + k ≤ text.length ∧
          ∀ i, i < k → text[pos1 + i]? = text[pos2 + i]?} (naive_lcp text text pos1 pos2)) ∧
    (b.width ≤ text1.length → b.width ≤ text2.length →
      pos1 + c ≤ text1.length → pos2 + c ≤ text2.length →
      (∀ i, i < c → text1[pos1 + i]? = text2[pos2 + i]?) →
      lcp_cmp_dual b text1 text1.length text2 text2.length pos1 pos2 c
          = .ret (naive_lcp text1 text2 pos1 pos2) ∧
        IsGreatest {k | pos1 + k ≤ text1.length ∧ pos2 + k ≤ text2.length ∧
          ∀ i, i < k → text1[pos1 + i]? = text2[pos2 + i]?}
          (naive_lcp text1 text2 pos1 pos2)) := by
  refine ⟨⟨rfl, rfl, rfl⟩, ?_, ?_⟩
  · intro hw hc heq
    have hg := naive_lcp_isGreatest text text pos1 pos2 (by omega) (by omega)
    have h1 := hg.1.1
    have h2 := hg.1.2.1
    exact ⟨lcp_cmp_single_eq b text pos1 pos2 c hn hw ⟨by omega, by omega, heq⟩,
      ⟨by omega, hg.1.2.2⟩, fun k hk => hg.2 ⟨by have := hk.1; omega, by have := hk.1; omega,
        hk.2⟩⟩
  · intro hw1 hw2 h1 h2 heq
    exact ⟨lcp_cmp_dual_eq b text1 text2 pos1 pos2 c hn1 hn2 hw1 hw2 ⟨h1, h2, heq⟩,
      naive_lcp_isGreatest text1 text2 pos1 pos2 (by omega) (by omega)⟩

/-- C11 at the 16-byte buffer `text16` with `pos1 = 1`, `pos2 = 7`, `common_len = 0`
in the native-word build (result 8), and for `lcp_cmp_dual` in the 16-byte build on
`text16` at 0 against `text16z` at 6 (result 9). -/
theorem chunk_builds_match_naive_witness :
    lcp_cmp_single .native text16 16 1 7 0 = .ret 8 ∧
      lcp_cmp_dual .sse16 text16 16 text16z 16 0 6 0 = .ret 9 :=
  ⟨((chunk_builds_match_naive .native text16 text16 text16z 1 7 0 (by decide) (by decide)
      (by decide)).2.1 (by decide) (by decide) (by decide)).1,
    ((chunk_builds_match_naive .sse16 text16 text16 text16z 0 6 0 (by decide) (by decide)
      (by decide)).2.2 (by decide) (by decide) (by decide) (by decide) (by decide)).1⟩

/-- C12, evaluated on the 6-byte buffer `"abcabd"` with `pos1 = 0`, `pos2 = 3`,
`common_len = 0`: in `size_t` arithmetic `text_len - W` is `2^64 - 2` (native word),
`2^64 - 10` (16 bytes), `2^64 - 26` (32 bytes), the guard `pos2 + len <= text_len - W`
is true, one chunk read at offsets 0 and 3 is attempted, it leaves the buffer, and
the call does not return the tail-phase result 2. -/
theorem short_buffer_guard_passes :
    (size_sub 6 Backend.native.width = 2 ^ 64 - 2 ∧
      size_sub 6 Backend.sse16.width = 2 ^ 64 - 10 ∧
      size_sub 6 Backend.avx32.width = 2 ^ 64 - 26) ∧
    (size_add 3 0 ≤ size_sub 6 Backend.native.width ∧
      size_add 3 0 ≤ size_sub 6 Backend.sse16.width ∧
      size_add 3 0 ≤ size_sub 6 Backend.avx32.width) ∧
    (lcp_cmp_single_reads .native abcabd 6 0 3 0 = [.chunk 0 3] ∧
      lcp_cmp_single_reads .sse16 abcabd 6 0 3 0 = [.chunk 0 3] ∧
      lcp_cmp_single_reads .avx32 abcabd 6 0 3 0 = [.chunk 0 3]) ∧
    (lcp_cmp_single .native abcabd 6 0 3 0 = .undef ∧
      lcp_cmp_single .sse16 abcabd 6 0 3 0 = .undef ∧
      lcp_cmp_single .avx32 abcabd 6 0 3 0 = .undef ∧
      lcp_cmp_dual .native hello 5 help 4 0 0 0 = .undef) ∧
    (lcp_cmp_single .scalar abcabd 6 0 3 0 = .ret 2 ∧
      lcp_cmp_dual .scalar hello 5 help 4 0 0 0 = .ret 3) := by
  decide

/-- C13. For each backend with chunk width `W` and every buffer of length `n ≥ W`,
on inputs without `size_t` overflow every chunk read of `lcp_cmp_single` satisfies
`offset + W ≤ n` on both sides, and the call returns a length; every chunk read of
`lcp_cmp_dual` (both `n1 ≥ W` and `n2 ≥ W`) satisfies `offset + W ≤` its own buffer
length on both sides, and the call returns a length. -/
theorem bulk_reads_in_bounds (b : Backend) (text text1 text2 : List Byte)
    (pos1 pos2 c : Nat) (hn : text.length < SIZE_MOD) (hn1 : text1.length < SIZE_MOD)
    (hn2 : text2.length < SIZE_MOD) (hw : b.width ≤ text.length)
    (hw1 : b.width ≤ text1.length) (hw2 : b.width ≤ text2.length)
    (hc1 : pos1 + c < SIZE_MOD) (hc2 : pos2 + c < SIZE_MOD) :
    ((∀ o1 o2, Access.chunk o1 o2 ∈ lcp_cmp_single_reads b text text.length pos1 pos2 c →
        o1 + b.width ≤ text.length ∧ o2 + b.width ≤ text.length) ∧
      ∃ k, lcp_cmp_single b text text.length pos1 pos2 c = .ret k) ∧
    ((∀ o1 o2, Access.chunk o1 o2
          ∈ lcp_cmp_dual_reads b text1 text1.length text2 text2.length pos1 pos2 c →
        o1 + b.width ≤ text1.length ∧ o2 + b.width ≤ text2.length) ∧
      ∃ k, lcp_cmp_dual b text1 text1.length text2 text2.length pos1 pos2 c = .ret k) := by
  refine ⟨⟨?_, ?_⟩, ?_, ?_⟩
  · intro o1 o2 h
    rw [lcp_cmp_single_reads_eq_dual b text text.length pos1 pos2 c hn hn (by omega)] at h
    exact lcp_cmp_dual_reads_chunk_bound b text text _ _ c o1 o2 hn hn hw hw h
  · obtain ⟨k, _, hk⟩ := lcp_cmp_single_returns b text pos1 pos2 c hn hw hc1 hc2
    exact ⟨k, hk⟩
  · intro o1 o2 h
    exact lcp_cmp_dual_reads_chunk_bound b text1 text2 pos1 pos2 c o1 o2 hn1 hn2 hw1 hw2 h
  · obtain ⟨k, _, hk⟩ := lcp_cmp_dual_returns b text1 text2 pos1 pos2 c hn1 hn2 hw1 hw2 hc1 hc2
    exact ⟨k, hk⟩

/-- C13 at the 16-byte buffer `text16` with `pos1 = 7`, `pos2 = 1`, `common_len = 0`
in the native-word build: the call reads one chunk at offsets 1 and 7, then the
bytes at 9 and 15, and the chunk lies inside the buffer on both sides. -/
theorem bulk_reads_in_bounds_witness :
    lcp_cmp_single_reads .native text16 16 7 1 0 = [.chunk 1 7, .byte 9 15] ∧
      (1 + 8 ≤ 16 ∧ 7 + 8 ≤ 16) :=
  ⟨by decide,
    (bulk_reads_in_bounds .native text16 text16 text16z 7 1 0 (by decide) (by decide)
      (by decide) (by decide) (by decide) (by decide) (by decide) (by decide)).1.1 1 7
      (by decide)⟩

/-- C15. For every pair of `W`-byte chunks that are not byte-for-byte equal, the
value added to `len` is the index of the first differing byte. Native word:
`diff = val1 ^ val2` of the two little-endian words is non-zero exactly when the
chunks differ, and `ctz(diff) >> 3` is that index. 16 bytes: bit `i` of `cmpmask` is
set exactly when byte `i` is equal, `diff = ~cmpmask & 0xffff` is non-zero exactly
when the chunks differ, and `ctz(diff)` is that index. 32 bytes: the same with
`diff = ~cmpmask` as a 32-bit value. In each chunk build, a bulk-loop iteration on
chunks inside their buffers goes on exactly when the chunks are equal, and otherwise
adds the index of the first differing byte. -/
theorem first_mismatch_located :
    (∀ v1 v2 : List Byte, v1.length = 8 → v2.length = 8 →
      (le_value v1 ^^^ le_value v2 ≠ 0 ↔ v1 ≠ v2) ∧
      (v1 ≠ v2 → IsFirstDiff v1 v2 (builtin_ctzl (le_value v1 ^^^ le_value v2) >>> 3))) ∧
    (∀ v1 v2 : List Byte, v1.length = 16 → v2.length = 16 →
      (∀ i, i < 16 →
        (mm_movemask_epi8 (mm_cmpeq_epi8 v1 v2)).testBit i = decide (v1[i]? = v2[i]?)) ∧
      (int_not (mm_movemask_epi8 (mm_cmpeq_epi8 v1 v2)) &&& 0x0000ffff ≠ 0 ↔ v1 ≠ v2) ∧
      (v1 ≠ v2 → IsFirstDiff v1 v2
        (builtin_ctz (int_not (mm_movemask_epi8 (mm_cmpeq_epi8 v1 v2)) &&& 0x0000ffff)))) ∧
    (∀ v1 v2 : List Byte, v1.length = 32 → v2.length = 32 →
      (∀ i, i < 32 →
        (mm_movemask_epi8 (mm_cmpeq_epi8 v1 v2)).testBit i = decide (v1[i]? = v2[i]?)) ∧
      (int_not (mm_movemask_epi8 (mm_cmpeq_epi8 v1 v2)) ≠ 0 ↔ v1 ≠ v2) ∧
      (v1 ≠ v2 → IsFirstDiff v1 v2
        (builtin_ctz (int_not (mm_movemask_epi8 (mm_cmpeq_epi8 v1 v2)))))) ∧
    (∀ (b : Backend) (t1 t2 v1 v2 : List Byte) (o1 o2 : Nat), b ≠ .scalar →
      load_bytes t1 o1 b.width = some v1 → load_bytes t2 o2 b.width = some v2 →
      (chunk_cmp b t1 t2 o1 o2 = some none ↔ v1 = v2) ∧
      (v1 ≠ v2 → ∃ k, chunk_cmp b t1 t2 o1 o2 = some (some k) ∧ IsFirstDiff v1 v2 k)) := by
  refine ⟨?_, ?_, ?_, ?_⟩
  · intro v1 v2 h1 h2
    have hl : v1.length = v2.length := by rw [h1, h2]
    refine ⟨(le_value_xor_eq_zero_iff v1 v2 hl).not, fun hne => ?_⟩
    have hk := ctz_le_value_xor v1 v2 64 hl (by omega) hne
    have e : builtin_ctzl (le_value v1 ^^^ le_value v2) >>> 3 = common_prefix_len v1 v2 := by
      rw [← hk, Nat.shiftRight_eq_div_pow]
      rfl
    rw [e]
    exact isFirstDiff_common_prefix_len v1 v2 hl hne
  · intro v1 v2 h1 h2
    have hl : v1.length = v2.length := by rw [h1, h2]
    rw [diff_sse16_eq v1 v2 h1 h2]
    refine ⟨fun i hi => movemask_testBit v1 v2 i hl (by omega),
      (mismatch_mask_eq_zero_iff v1 v2 hl).not, fun hne => ?_⟩
    have hk := ctz_mismatch_mask v1 v2 32 hl (by omega) hne
    have e : builtin_ctz (mismatch_mask v1 v2) = common_prefix_len v1 v2 := hk
    rw [e]
    exact isFirstDiff_common_prefix_len v1 v2 hl hne
  · intro v1 v2 h1 h2
    have hl : v1.length = v2.length := by rw [h1, h2]
    rw [diff_avx32_eq v1 v2 h1 h2]
    refine ⟨fun i hi => movemask_testBit v1 v2 i hl (by omega),
      (mismatch_mask_eq_zero_iff v1 v2 hl).not, fun hne => ?_⟩
    have hk := ctz_mismatch_mask v1 v2 32 hl (by omega) hne
    have e : builtin_ctz (mismatch_mask v1 v2) = common_prefix_len v1 v2 := hk
    rw [e]
    exact isFirstDiff_common_prefix_len v1 v2 hl hne
  · intro b t1 t2 v1 v2 o1 o2 hb h1 h2
    have hl : v1.length = v2.length := by
      rw [(load_bytes_some h1).2.2, (load_bytes_some h2).2.2]
    rw [chunk_cmp_eq hb h1 h2]
    constructor
    · by_cases hv : v1 = v2
      · simp [hv]
      · simp [hv]
    · intro hne
      exact ⟨common_prefix_len v1 v2, by rw [if_neg hne],
        isFirstDiff_common_prefix_len v1 v2 hl hne⟩

/-- C15 at the chunks `"abcdefgh"` and `"abcdeXgh"`, which first differ at index 5:
the native-word computation gives 5, and so does one bulk-loop iteration. -/
theorem first_mismatch_located_witness :
    IsFirstDiff abcdefgh abcdeXgh 5 ∧
      builtin_ctzl (le_value abcdefgh ^^^ le_value abcdeXgh) >>> 3 = 5 ∧
      chunk_cmp .native abcdefgh abcdeXgh 0 0 = some (some 5) :=
  ⟨(first_mismatch_located.1 abcdefgh abcdeXgh (by decide) (by decide)).2 (by decide),
    by decide, by decide⟩

/-- C16, evaluated in the native-word build on `text1 = "aaaa"` (4 bytes) and
`text2 = "aaaaaaaaa"` (9 bytes) with `pos1 = pos2 = 0`: both 0 and 2 are valid lower
bounds, yet with `common_len = 0` the guard of the bulk loop passes on both sides
(`4 - 8` wraps around) and the chunk read leaves `text1`, while with `common_len = 2`
the guard fails on `text2` and the call returns 4, as the build without a backend
does for both. When the 4 bytes are the head of a 16-byte object the two calls
return 8 and 4. -/
theorem lower_bound_changes_result_on_short_buffer :
    (ValidBound aaaa aaaaaaaaa 0 0 0 ∧ ValidBound aaaa aaaaaaaaa 0 0 2) ∧
    (lcp_cmp_dual .native aaaa 4 aaaaaaaaa 9 0 0 0 = .undef ∧
      lcp_cmp_dual .native aaaa 4 aaaaaaaaa 9 0 0 2 = .ret 4) ∧
    (lcp_cmp_dual .scalar aaaa 4 aaaaaaaaa 9 0 0 0 = .ret 4 ∧
      lcp_cmp_dual .scalar aaaa 4 aaaaaaaaa 9 0 0 2 = .ret 4) ∧
    (lcp_cmp_dual .native (aaaaaaaa ++ aaaaaaaa) 4 aaaaaaaaa 9 0 0 0 = .ret 8 ∧
      lcp_cmp_dual .native (aaaaaaaa ++ aaaaaaaa) 4 aaaaaaaaa 9 0 0 2 = .ret 4) := by
  refine ⟨⟨⟨by decide, by decide, by decide⟩, ⟨by decide, by decide, by decide⟩⟩, ?_, ?_, ?_⟩ <;>
    decide

/-- C17. For every build, every pair of buffers, lengths, positions and
`common_len`, exchanging the two sides of `lcp_cmp_dual` leaves what the call does
unchanged. -/
theorem dual_sides_exchange (b : Backend) (text1 : List Byte) (n1 : Nat) (text2 : List Byte)
    (n2 pos1 pos2 c : Nat) :
    lcp_cmp_dual b text1 n1 text2 n2 pos1 pos2 c
      = lcp_cmp_dual b text2 n2 text1 n1 pos2 pos1 c :=
  lcp_cmp_dual_swap b text1 n1 text2 n2 pos1 pos2 c

/-- C5, evaluated on the 4-byte buffer `"abcb"` with `pos1 = 3`, `pos2 = 0`,
`common_len = 1`: the larger position plus `common_len` is the buffer end, and the
build without a backend returns `common_len = 1`. In each chunk build `text_len - W`
wraps around, the guard of the bulk loop passes and the chunk read leaves the
buffer; `lcp_cmp_dual` does the same with `"abcb"` against a 16-byte buffer. When the
4 bytes are the head of a 22-byte object, the native-word build returns 14, not 1. -/
theorem end_reached_on_short_buffer :
    (abcb.length ≤ max 3 0 + 1 ∧ 3 + 1 < SIZE_MOD) ∧
    (lcp_cmp_single .scalar abcb 4 3 0 1 = .ret 1 ∧
      lcp_cmp_dual .scalar abcb 4 (aaaaaaaa ++ aaaaaaaa) 16 3 0 1 = .ret 1) ∧
    (lcp_cmp_single .native abcb 4 3 0 1 = .undef ∧
      lcp_cmp_single .sse16 abcb 4 3 0 1 = .undef ∧
      lcp_cmp_single .avx32 abcb 4 3 0 1 = .undef ∧
      lcp_cmp_dual .native abcb 4 (aaaaaaaa ++ aaaaaaaa) 16 3 0 1 = .undef) ∧
    (lcp_cmp_single .scalar (aaaaaaaa ++ aaaaaaaa ++ abcabd) 4 3 0 1 = .ret 1 ∧
      lcp_cmp_single .native (aaaaaaaa ++ aaaaaaaa ++ abcabd) 4 3 0 1 = .ret 14) := by
  decide

/-- C6, evaluated on the claim's own input `text = "aaaaaaaa"` (8 bytes), `pos1 = 0`,
`pos2 = 1`, `common_len = 0`, where no mismatch occurs before the buffer end: the
build without a backend and the native-word build return 7, while in the 16-byte and
32-byte builds `text_len - W` wraps around, the guard of the bulk loop passes and the
chunk read leaves the buffer. The native-word build does the same on a shorter
buffer: on the first 6 bytes of `mem24` (all `'a'`) it returns 11 instead of 5, and
`lcp_cmp_dual` on `"aaaa"` against `"aaaaaaaaa"` leaves the 4-byte buffer instead of
returning 4. -/
theorem boundary_passed_on_short_buffer :
    ((∀ i, i < aaaaaaaa.length - max 0 1 → aaaaaaaa[0 + i]? = aaaaaaaa[1 + i]?) ∧
      lcp_cmp_single .scalar aaaaaaaa 8 0 1 0 = .ret 7 ∧
      lcp_cmp_single .native aaaaaaaa 8 0 1 0 = .ret 7 ∧
      lcp_cmp_single .sse16 aaaaaaaa 8 0 1 0 = .undef ∧
      lcp_cmp_single .avx32 aaaaaaaa 8 0 1 0 = .undef) ∧
    ((∀ i, i < 6 - max 0 1 → mem24[0 + i]? = mem24[1 + i]?) ∧
      lcp_cmp_single .scalar mem24 6 0 1 0 = .ret 5 ∧
      lcp_cmp_single .native mem24 6 0 1 0 = .ret 11) ∧
    ((∀ i, i < min (aaaa.length - 0) (aaaaaaaaa.length - 0) →
        aaaa[0 + i]? = aaaaaaaaa[0 + i]?) ∧
      lcp_cmp_dual .scalar aaaa 4 aaaaaaaaa 9 0 0 0 = .ret 4 ∧
      lcp_cmp_dual .native aaaa 4 aaaaaaaaa 9 0 0 0 = .undef) := by
  decide

end LcpCmp
